import Mathlib

/-!
# go-stream `util`: the sequence-numbered acknowledgment buffer

A shallow embedding of `src/util/util.go`: `SequentialBufferChanImpl` with the
buffered channel it is built on, and the record container `MemoryBuffer`.

Modelling conventions.
* A payload (`[]byte`) is a list of bytes; a `nil` slice is the empty list.
* What the source leaves to the Go implementation is a `Machine`: the width
  of `int` and the largest sizes `make` accepts.  Everything is stated for an
  arbitrary machine; `amd64` is the concrete one used for examples.
* Go's `int` is a fixed-width two's complement integer.  A value of type
  `int` is an `Int` between `minInt` and `maxInt`, and the additions the
  source performs on `int`s (`buf.seq++`, `buf.lastack++`,
  `buf.lastack+len(buf.chanbuf)`, `n += len(b)`) are followed by `wrap`, the
  reduction into that range.  Lengths and `len(ch) + 1` are computed exactly:
  a length is an `int`, and a channel never holds more than `maxChan`
  elements, which is below `maxInt`.  The `uint` count of `Ack` is a `Nat`: it
  counts dequeued entries, of which there are at most `maxChan`.  The
  increment `mb.current++` of `ReadNext` runs only when `current` is below
  `len(mb.buf)` and is exact.
* A buffered channel is its FIFO contents together with its capacity; the
  Go runtime never holds more than `cap` elements, which is a field of the
  channel type here.  A send on a full channel and a receive on an empty one
  suspend the calling goroutine: an operation that reaches such a point ends
  in `Outcome.blocked`, carrying the state at that point.
* Methods on the pointer receiver are functions from the state before the
  call to an `Outcome` holding the result and the state after the call.
* Slices have value semantics: a stored payload is the bytes it had when it
  was handed over.
* Two actors on one buffer are a step relation (`Session.Step`) whose steps
  are whole method calls.  `Add` touches only the channel and `seq`, `Ack`
  only the channel and `lastack`, and the channel operations are atomic.
* Running out of memory is not modelled.
-/

namespace util

/-- A payload, `[]byte` in the source. -/
abbrev Payload := List UInt8

/-- How a call ends: it returns a value, it suspends the goroutine on a
channel operation, or it panics.  Each case carries the receiver's state at
that moment. -/
inductive Outcome (σ : Type) (α : Type) where
  | returned (val : α) (st : σ)
  | blocked (st : σ)
  | panicked (msg : String) (st : σ)
  deriving Repr

/-- What the Go implementation fixes for a compilation target.  The type `int`
has `bits + 1` bits (32 or 64).  `make(chan []byte, n)` panics with "size out
of range" when `n` is above `maxChan`, and `make([][]byte, 0, n)` panics when
`n` is above `maxSlice`: the memory for `n` elements must stay within what
the allocator can address.  On every target that is room for a channel of 8
slices, and far less than `maxInt` of them. -/
structure Machine where
  bits : Nat
  maxChan : Nat
  maxSlice : Nat
  chan_small : 8 ≤ maxChan
  chan_lt : maxChan + 1 < 2 ^ bits

namespace Machine

/-- Half the number of values of `int`: `2 ^ bits`. -/
def half (m : Machine) : Int := ((2 ^ m.bits : Nat) : Int)

/-- The largest `int`. -/
def maxInt (m : Machine) : Int := m.half - 1

/-- The smallest `int`. -/
def minInt (m : Machine) : Int := -m.half

/-- The `int` that an arithmetic operation leaves when its exact result is
`x`: the value congruent to `x` modulo `2 ^ (bits + 1)` between `minInt` and
`maxInt`. -/
def wrap (m : Machine) (x : Int) : Int := (x + m.half) % (2 * m.half) - m.half

/-- The wrapped value together with the fact that it is an `int`. -/
def wrapped (m : Machine) (x : Int) : { y : Int // m.minInt ≤ y ∧ y ≤ m.maxInt } :=
  ⟨m.wrap x, by
    have hpos : (0 : Int) < m.half := by
      unfold half
      exact_mod_cast Nat.two_pow_pos m.bits
    have h1 := Int.emod_nonneg (x + m.half) (show (2 * m.half) ≠ 0 by omega)
    have h2 := Int.emod_lt_of_pos (x + m.half) (show (0 : Int) < 2 * m.half by omega)
    unfold wrap minInt maxInt
    omega⟩

end Machine

/-- The 64-bit target linux/amd64: `int` has 64 bits, and the allocator
addresses `2 ^ 48` bytes, of which an element of type `[]byte` takes 24 and
the channel header 96. -/
def amd64 : Machine where
  bits := 63
  maxChan := 11728124029606
  maxSlice := 11728124029610
  chan_small := by decide
  chan_lt := by decide

/-- A buffered channel of payloads, `chan []byte`: queued elements, oldest
first, and the capacity fixed by `make`. -/
structure Chan (m : Machine) where
  items : List Payload
  cap : Nat
  le_cap : items.length ≤ cap
  cap_le : cap ≤ m.maxChan

namespace Chan

variable {m : Machine}

/-- The Go expression `make(chan []byte, n)`: an empty channel of capacity
`n`; `make` panics (`none`) on a negative size and on one above what the
target can allocate. -/
def make (m : Machine) (n : Int) : Option (Chan m) :=
  if h : n < 0 ∨ (m.maxChan : Int) < n then none
  else some ⟨[], n.toNat, Nat.zero_le _, by omega⟩

/-- The Go builtin `len(ch)`. -/
def len (ch : Chan m) : Int := ch.items.length

/-- The Go builtin `cap(ch)`. -/
def capacity (ch : Chan m) : Int := ch.cap

/-- The send statement `ch <- v`: enqueue at the tail, or `none` when the
channel is full and the sender would block. -/
def send (ch : Chan m) (v : Payload) : Option (Chan m) :=
  if h : ch.items.length < ch.cap then
    some ⟨ch.items ++ [v], ch.cap, by simpa using h, ch.cap_le⟩
  else none

/-- The receive expression `<-ch`: dequeue the head, or `none` when the
channel is empty and the receiver would block. -/
def recv (ch : Chan m) : Option (Payload × Chan m) :=
  match h : ch.items with
  | [] => none
  | v :: rest =>
    some (v, ⟨rest, ch.cap, by
      have := ch.le_cap
      rw [h] at this
      exact Nat.le_of_succ_le this, ch.cap_le⟩)

end Chan

namespace Machine

/-- A number of channel elements, or one more, as an `int`: it is at most
`maxChan + 1`, which is below `maxInt`. -/
def ofCount (m : Machine) (n : Nat) (h : n ≤ m.maxChan + 1) :
    { y : Int // m.minInt ≤ y ∧ y ≤ m.maxInt } :=
  ⟨(n : Int), by
    have h1 := m.chan_lt
    have h2 : ((m.maxChan + 1 : Nat) : Int) < ((2 ^ m.bits : Nat) : Int) := by
      exact_mod_cast h1
    unfold minInt maxInt half
    push_cast at h2 ⊢
    omega⟩

end Machine

/-- The struct `SequentialBufferChanImpl`; its two `int` fields hold values of
type `int`. -/
structure SequentialBufferChanImpl (m : Machine) where
  seq : Int
  chanbuf : Chan m
  lastack : Int
  seq_range : m.minInt ≤ seq ∧ seq ≤ m.maxInt
  lastack_range : m.minInt ≤ lastack ∧ lastack ≤ m.maxInt

/-- The function `NewSequentialBufferChanImpl(maxItems)`; `none` when
`make` panics. -/
def NewSequentialBufferChanImpl (m : Machine) (maxItems : Int) :
    Option (SequentialBufferChanImpl m) :=
  match Chan.make m maxItems with
  | none => none
  | some ch =>
    some ⟨1, ch, 0, (m.ofCount 1 (by omega)).2, (m.ofCount 0 (by omega)).2⟩

namespace SequentialBufferChanImpl

variable {m : Machine}

/-- The method `CanAdd`. -/
def CanAdd (buf : SequentialBufferChanImpl m) :
    Outcome (SequentialBufferChanImpl m) Bool :=
  .returned (decide (buf.chanbuf.len < buf.chanbuf.capacity)) buf

/-- The method `Add`: the send comes first, so a full channel suspends the
call before the counter is read.  The named result `err` is never assigned
and stays `nil` (`none`).  The increment `buf.seq++` wraps. -/
def Add (buf : SequentialBufferChanImpl m) (payload : Payload) :
    Outcome (SequentialBufferChanImpl m) (Int × Option String) :=
  match buf.chanbuf.send payload with
  | none => .blocked buf
  | some ch =>
    let buf1 : SequentialBufferChanImpl m := { buf with chanbuf := ch }
    let seq := buf1.seq
    let buf2 : SequentialBufferChanImpl m :=
      { buf1 with seq := m.wrap (buf1.seq + 1), seq_range := (m.wrapped (buf1.seq + 1)).2 }
    .returned (seq, none) buf2

/-- The loop `for seq > buf.lastack { <-buf.chanbuf; buf.lastack++; count++ }`
of `Ack`.  Every iteration that does not block takes an entry off the queue,
so the loop ends. -/
def ackLoop (seq : Int) (buf : SequentialBufferChanImpl m) (count : Nat) :
    Outcome (SequentialBufferChanImpl m) Nat :=
  if seq > buf.lastack then
    match h : buf.chanbuf.recv with
    | none => .blocked buf
    | some (_, ch) =>
      ackLoop seq
        { buf with
          chanbuf := ch
          lastack := m.wrap (buf.lastack + 1)
          lastack_range := (m.wrapped (buf.lastack + 1)).2 }
        (count + 1)
  else .returned count buf
termination_by buf.chanbuf.items.length
decreasing_by
  simp_wf
  unfold Chan.recv at h
  split at h
  · exact absurd h (by simp)
  · rename_i v0 rest hitems
    simp only [Option.some.injEq, Prod.mk.injEq] at h
    rw [hitems, ← h.2]
    simp

/-- The method `Ack`.  The sum `buf.lastack+len(buf.chanbuf)` of the
pre-check is an `int` addition and wraps. -/
def Ack (buf : SequentialBufferChanImpl m) (seq : Int) :
    Outcome (SequentialBufferChanImpl m) Nat :=
  let count : Nat := 0
  if m.wrap (buf.lastack + buf.chanbuf.len) < seq then
    .panicked "Improper use" buf
  else
    ackLoop seq buf count

/-- The method `Len`. -/
def Len (buf : SequentialBufferChanImpl m) : Outcome (SequentialBufferChanImpl m) Int :=
  .returned buf.chanbuf.len buf

/-- The first loop of `Reset`,
`for len(buf.chanbuf) > 0 { ret[i] = <-buf.chanbuf; i++ }`.  The receive is
evaluated before the indexed store, whose bounds check panics when `i` is
past the end of `ret`. -/
def resetDrain (buf : SequentialBufferChanImpl m) (ret : List Payload) (i : Nat) :
    Outcome (SequentialBufferChanImpl m) (List Payload × Nat) :=
  if buf.chanbuf.len > 0 then
    match h : buf.chanbuf.recv with
    | none => .blocked buf
    | some (v, ch) =>
      let buf1 : SequentialBufferChanImpl m := { buf with chanbuf := ch }
      if i < ret.length then
        resetDrain buf1 (ret.set i v) (i + 1)
      else .panicked "index out of range" buf1
  else .returned (ret, i) buf
termination_by buf.chanbuf.items.length
decreasing_by
  simp_wf
  unfold Chan.recv at h
  split at h
  · exact absurd h (by simp)
  · rename_i v0 rest hitems
    simp only [Option.some.injEq, Prod.mk.injEq] at h
    rw [hitems, ← h.2]
    simp

/-- The second loop of `Reset`, `for _, val := range ret { buf.chanbuf <- val }`. -/
def resetReload (buf : SequentialBufferChanImpl m) :
    List Payload → Outcome (SequentialBufferChanImpl m) Unit
  | [] => .returned () buf
  | val :: rest =>
    match buf.chanbuf.send val with
    | none => .blocked buf
    | some ch => resetReload { buf with chanbuf := ch } rest

/-- The method `Reset`.  The sum `len(buf.chanbuf) + 1` is at most
`maxChan + 1` and does not wrap. -/
def Reset (buf : SequentialBufferChanImpl m) :
    Outcome (SequentialBufferChanImpl m) (List Payload) :=
  let ret0 : List Payload := List.replicate buf.chanbuf.len.toNat []
  match resetDrain buf ret0 0 with
  | .blocked st => .blocked st
  | .panicked msg st => .panicked msg st
  | .returned (ret, _) buf1 =>
    match resetReload buf1 ret with
    | .blocked st => .blocked st
    | .panicked msg st => .panicked msg st
    | .returned _ buf2 =>
      let buf3 : SequentialBufferChanImpl m :=
        { buf2 with lastack := 0, lastack_range := (m.ofCount 0 (by omega)).2 }
      let buf4 : SequentialBufferChanImpl m :=
        { buf3 with
          seq := buf3.chanbuf.len + 1
          seq_range := (m.ofCount (buf3.chanbuf.items.length + 1) (by
            have h1 := buf3.chanbuf.le_cap
            have h2 := buf3.chanbuf.cap_le
            omega)).2 }
      .returned ret buf4

/-- A caller that issues `Add` once per payload of the list, in order, with
nothing in between, and collects the sequence numbers it is handed (starting
from `acc`).  The run stops at the first call that does not return. -/
def addAll (buf : SequentialBufferChanImpl m) (acc : List Int) :
    List Payload → Outcome (SequentialBufferChanImpl m) (List Int)
  | [] => .returned acc buf
  | p :: rest =>
    match Add buf p with
    | .returned (seq, _) buf1 => addAll buf1 (acc ++ [seq]) rest
    | .blocked st => .blocked st
    | .panicked msg st => .panicked msg st

/-- The payloads of a list paired with consecutive sequence numbers, the
first one getting `start`. -/
def numberFrom (start : Int) : List Payload → List (Int × Payload)
  | [] => []
  | p :: rest => (start, p) :: numberFrom (start + 1) rest

/-- The states reachable from `NewSequentialBufferChanImpl(maxItems)` by calls
that return (`Add` when the channel has room, `Ack` when it does not panic,
`CanAdd`, `Len`, `Reset`), each with the record of the current numbering
epoch: the pairs of sequence number and payload handed out in it, oldest
first.  A returning `Add(p)` records `p` under the number it returns; `Reset`
opens a new epoch whose record is the returned entries numbered from 1 in
their order; the other calls record nothing. -/
inductive Reachable (maxItems : Int) :
    SequentialBufferChanImpl m → List (Int × Payload) → Prop where
  | fresh (b : SequentialBufferChanImpl m) :
      NewSequentialBufferChanImpl m maxItems = some b → Reachable maxItems b []
  | add (b b1 : SequentialBufferChanImpl m) (issued : List (Int × Payload)) (p : Payload)
      (n : Int) (e : Option String) :
      Reachable maxItems b issued → Add b p = .returned (n, e) b1 →
      Reachable maxItems b1 (issued ++ [(n, p)])
  | ack (b b1 : SequentialBufferChanImpl m) (issued : List (Int × Payload)) (s : Int)
      (k : Nat) :
      Reachable maxItems b issued → Ack b s = .returned k b1 →
      Reachable maxItems b1 issued
  | canAdd (b b1 : SequentialBufferChanImpl m) (issued : List (Int × Payload)) (r : Bool) :
      Reachable maxItems b issued → CanAdd b = .returned r b1 →
      Reachable maxItems b1 issued
  | len (b b1 : SequentialBufferChanImpl m) (issued : List (Int × Payload)) (n : Int) :
      Reachable maxItems b issued → Len b = .returned n b1 →
      Reachable maxItems b1 issued
  | reset (b b1 : SequentialBufferChanImpl m) (issued : List (Int × Payload))
      (ps : List Payload) :
      Reachable maxItems b issued → Reset b = .returned ps b1 →
      Reachable maxItems b1 (numberFrom 1 ps)

/-- Paired cycles run one after the other: for each payload of the list an
`Add`, followed at once by `Ack` of the sequence number that `Add` returned.
The counts returned by the `Ack`s are collected (starting from `acks`); the
run stops at the first call that does not return. -/
def pairedCycles (buf : SequentialBufferChanImpl m) (acks : List Nat) :
    List Payload → Outcome (SequentialBufferChanImpl m) (List Nat)
  | [] => .returned acks buf
  | p :: rest =>
    match Add buf p with
    | .blocked st => .blocked st
    | .panicked msg st => .panicked msg st
    | .returned (seq, _) buf1 =>
      match Ack buf1 seq with
      | .blocked st => .blocked st
      | .panicked msg st => .panicked msg st
      | .returned k buf2 => pairedCycles buf2 (acks ++ [k]) rest

end SequentialBufferChanImpl

/-- A producer and an acknowledger sharing one buffer: the payloads the
producer has still to add, the sequence numbers that `Add` has returned and
the acknowledger has not yet acknowledged (oldest first), and the counts the
`Ack` calls have returned so far. -/
structure Session (m : Machine) where
  buf : SequentialBufferChanImpl m
  toSend : List Payload
  toAck : List Int
  acks : List Nat

namespace Session

variable {m : Machine}

/-- One scheduling step of a session, at the granularity of whole method
calls: the producer completes an `Add` of its next payload and hands the
returned number to the acknowledger, or the acknowledger completes the `Ack`
of the oldest number it was handed.  A call that would block or panic is not
a step. -/
inductive Step : Session m → Session m → Prop where
  | produce (s : Session m) (p : Payload) (rest : List Payload) (n : Int)
      (e : Option String) (b1 : SequentialBufferChanImpl m) :
      s.toSend = p :: rest → s.buf.Add p = .returned (n, e) b1 →
      Step s ⟨b1, rest, s.toAck ++ [n], s.acks⟩
  | acknowledge (s : Session m) (n : Int) (rest : List Int) (k : Nat)
      (b1 : SequentialBufferChanImpl m) :
      s.toAck = n :: rest → s.buf.Ack n = .returned k b1 →
      Step s ⟨b1, s.toSend, rest, s.acks ++ [k]⟩

/-- The states a session reaches from `start` in any number of steps, in any
order the scheduler picks. -/
inductive Runs (start : Session m) : Session m → Prop where
  | refl : Runs start start
  | tail (s s1 : Session m) : Runs start s → Step s s1 → Runs start s1

/-- The number of calls a session has still to make: two per payload to
send, one per number to acknowledge. -/
def remaining (s : Session m) : Nat := 2 * s.toSend.length + s.toAck.length

end Session

/-! ## The record buffer `MemoryBuffer` -/

/-- The struct `MemoryBuffer`: the slice `buf` is its list of elements (the
spare capacity of the backing array is not observable through the methods). -/
structure MemoryBuffer where
  buf : List Payload
  current : Int

/-- The function `NewMemoryBuffer(size)`; `none` when `make` panics, on a
negative capacity and on one above what the target can allocate. -/
def NewMemoryBuffer (m : Machine) (size : Int) : Option MemoryBuffer :=
  if size < 0 ∨ (m.maxSlice : Int) < size then none else some ⟨[], 0⟩

namespace MemoryBuffer
/-- The method `Write`. -/
def Write (mb : MemoryBuffer) (p : Payload) :
    Outcome MemoryBuffer (Int × Option String) :=
  let mb1 : MemoryBuffer := { mb with buf := mb.buf ++ [p] }
  .returned ((p.length : Int), none) mb1

/-- The method `ReadNext`.  The index expression `mb.buf[mb.current]` panics
when `current` is negative, which `Scan` can make it. -/
def ReadNext (mb : MemoryBuffer) :
    Outcome MemoryBuffer (Payload × Bool × Option String) :=
  if mb.current ≥ (mb.buf.length : Int) then
    .returned ([], true, none) mb
  else if mb.current < 0 then
    .panicked "index out of range" mb
  else
    match mb.buf[mb.current.toNat]? with
    | none => .panicked "index out of range" mb
    | some b =>
      let mb1 : MemoryBuffer := { mb with current := mb.current + 1 }
      .returned (b, false, none) mb1

/-- The method `Clear`. -/
def Clear (mb : MemoryBuffer) : Outcome MemoryBuffer Unit :=
  let mb1 : MemoryBuffer := { mb with buf := mb.buf.take 0 }
  let mb2 : MemoryBuffer := { mb1 with current := 0 }
  .returned () mb2

/-- The method `Scan`. -/
def Scan (mb : MemoryBuffer) (pos : Int) : Outcome MemoryBuffer Unit :=
  .returned () { mb with current := pos }

/-- The method `Len`. -/
def Len (mb : MemoryBuffer) : Outcome MemoryBuffer Int :=
  .returned (mb.buf.length : Int) mb

/-- The method `ByteSize`: the loop over `mb.buf` adds up the lengths in the
`int` variable `n`, and each `n += len(b)` wraps. -/
def ByteSize (m : Machine) (mb : MemoryBuffer) : Outcome MemoryBuffer Int :=
  let n : Int := mb.buf.foldl (fun n b => m.wrap (n + (b.length : Int))) 0
  .returned n mb

/-- A caller that writes the payloads of a list in order and collects what
each `Write` returns (starting from `acc`). -/
def writeAll (mb : MemoryBuffer) (acc : List (Int × Option String)) :
    List Payload → Outcome MemoryBuffer (List (Int × Option String))
  | [] => .returned acc mb
  | p :: rest =>
    match Write mb p with
    | .returned r mb1 => writeAll mb1 (acc ++ [r]) rest
    | .blocked st => .blocked st
    | .panicked msg st => .panicked msg st

/-- A caller that calls `ReadNext` a given number of times and collects what
each call returns (starting from `acc`). -/
def readMany (mb : MemoryBuffer) (acc : List (Payload × Bool × Option String)) :
    Nat → Outcome MemoryBuffer (List (Payload × Bool × Option String))
  | 0 => .returned acc mb
  | n + 1 =>
    match ReadNext mb with
    | .returned r mb1 => readMany mb1 (acc ++ [r]) n
    | .blocked st => .blocked st
    | .panicked msg st => .panicked msg st

end MemoryBuffer



/-! ## Fixed-width arithmetic -/

namespace Machine

theorem half_pos (m : Machine) : (0 : Int) < m.half := by
  unfold half
  exact_mod_cast Nat.two_pow_pos m.bits

theorem maxChan_lt (m : Machine) : (m.maxChan : Int) + 1 < m.half := by
  have h := m.chan_lt
  unfold half
  exact_mod_cast h

theorem wrap_range (m : Machine) (x : Int) : m.minInt ≤ m.wrap x ∧ m.wrap x ≤ m.maxInt :=
  (m.wrapped x).2

theorem wrap_of_range (m : Machine) (x : Int) (h1 : m.minInt ≤ x) (h2 : x ≤ m.maxInt) :
    m.wrap x = x := by
  have hpos := m.half_pos
  unfold minInt at h1
  unfold maxInt at h2
  unfold wrap
  rw [Int.emod_eq_of_lt (by omega) (by omega)]
  omega

theorem wrap_above (m : Machine) (x : Int) (h1 : m.maxInt < x)
    (h2 : x ≤ m.maxInt + 2 * m.half) : m.wrap x = x - 2 * m.half := by
  have hpos := m.half_pos
  unfold maxInt at h1 h2
  unfold wrap
  have e : x + m.half = (x - m.half) + 2 * m.half := by omega
  rw [e, Int.add_emod_self, Int.emod_eq_of_lt (by omega) (by omega)]
  omega

theorem wrap_add_wrap (m : Machine) (x y : Int) : m.wrap (m.wrap x + y) = m.wrap (x + y) := by
  unfold wrap
  have e1 : (x + m.half) % (2 * m.half) - m.half + y + m.half
      = (x + m.half) % (2 * m.half) + y := by omega
  have e2 : x + y + m.half = x + m.half + y := by omega
  rw [e1, e2, Int.emod_add_emod]

end Machine
/-! ## Indexed stores into a slice -/

theorem take_succ_set {α : Type} (l : List α) (i : Nat) (v : α) (h : i < l.length) :
    (l.set i v).take (i + 1) = l.take i ++ [v] := by
  induction l generalizing i with
  | nil => simp at h
  | cons a t ih =>
    cases i with
    | zero => simp
    | succ j =>
      simp only [List.length_cons, Nat.add_lt_add_iff_right] at h
      simp [ih j h]

theorem drop_succ_set {α : Type} (l : List α) (i k : Nat) (v : α) :
    (l.set i v).drop (i + 1 + k) = l.drop (i + 1 + k) :=
  List.drop_set_of_lt v l (by omega)

/-! ## The channel primitives -/

namespace Chan

variable {m : Machine}

theorem send_of_lt (ch : Chan m) (v : Payload) (h : ch.items.length < ch.cap) :
    ∃ ch1, ch.send v = some ch1 ∧ ch1.items = ch.items ++ [v] ∧ ch1.cap = ch.cap := by
  unfold send
  rw [dif_pos h]
  exact ⟨_, rfl, rfl, rfl⟩

theorem send_of_full (ch : Chan m) (v : Payload) (h : ¬ ch.items.length < ch.cap) :
    ch.send v = none := by
  unfold send
  rw [dif_neg h]

theorem recv_nil (ch : Chan m) (h : ch.items = []) : ch.recv = none := by
  unfold recv
  split
  · rfl
  · rename_i v rest heq
    rw [h] at heq
    exact absurd heq (by simp)

theorem recv_cons (ch : Chan m) (v : Payload) (rest : List Payload)
    (h : ch.items = v :: rest) :
    ∃ ch1, ch.recv = some (v, ch1) ∧ ch1.items = rest ∧ ch1.cap = ch.cap := by
  unfold recv
  split
  · rename_i heq
    rw [h] at heq
    exact absurd heq (by simp)
  · rename_i v0 rest0 heq
    rw [h] at heq
    obtain ⟨hv, hr⟩ := List.cons.inj heq
    subst hv
    subst hr
    exact ⟨_, rfl, rfl, rfl⟩

theorem len_lt_half (ch : Chan m) : (ch.items.length : Int) + 1 < m.half := by
  have h1 := ch.le_cap
  have h2 := ch.cap_le
  have h3 := m.maxChan_lt
  omega

end Chan

namespace SequentialBufferChanImpl

variable {m : Machine}

/-! ## What each method does to the state -/

theorem add_wraps (b : SequentialBufferChanImpl m) (p : Payload)
    (h : b.chanbuf.items.length < b.chanbuf.cap) :
    ∃ b1, Add b p = .returned (b.seq, none) b1 ∧
      b1.chanbuf.items = b.chanbuf.items ++ [p] ∧ b1.chanbuf.cap = b.chanbuf.cap ∧
      b1.seq = m.wrap (b.seq + 1) ∧ b1.lastack = b.lastack := by
  obtain ⟨ch1, hs, hi, hc⟩ := Chan.send_of_lt b.chanbuf p h
  unfold Add
  rw [hs]
  exact ⟨_, rfl, hi, hc, rfl, rfl⟩

theorem add_spec (b : SequentialBufferChanImpl m) (p : Payload)
    (h : b.chanbuf.items.length < b.chanbuf.cap) (hseq : b.seq < m.maxInt) :
    ∃ b1, Add b p = .returned (b.seq, none) b1 ∧
      b1.chanbuf.items = b.chanbuf.items ++ [p] ∧ b1.chanbuf.cap = b.chanbuf.cap ∧
      b1.seq = b.seq + 1 ∧ b1.lastack = b.lastack := by
  obtain ⟨b1, h1, hi, hc, hs, hl⟩ := add_wraps b p h
  refine ⟨b1, h1, hi, hc, ?_, hl⟩
  rw [hs, m.wrap_of_range _ (by have := b.seq_range.1; omega) (by omega)]

theorem add_full (b : SequentialBufferChanImpl m) (p : Payload)
    (h : ¬ b.chanbuf.items.length < b.chanbuf.cap) :
    Add b p = .blocked b := by
  unfold Add
  rw [Chan.send_of_full b.chanbuf p h]

theorem ackLoop_done (seq : Int) (b : SequentialBufferChanImpl m) (count : Nat)
    (h : seq ≤ b.lastack) : ackLoop seq b count = .returned count b := by
  unfold ackLoop
  rw [if_neg (by omega)]

theorem ackLoop_spec (seq : Int) (hmax : seq ≤ m.maxInt) (n : Nat) :
    ∀ (b : SequentialBufferChanImpl m) (count : Nat),
      seq - b.lastack = (n : Int) → n ≤ b.chanbuf.items.length →
      ∃ b1, ackLoop seq b count = .returned (count + n) b1 ∧
        b1.chanbuf.items = b.chanbuf.items.drop n ∧ b1.chanbuf.cap = b.chanbuf.cap ∧
        b1.lastack = seq ∧ b1.seq = b.seq := by
  induction n with
  | zero =>
    intro b count hs _
    refine ⟨b, ?_, by simp, rfl, by omega, rfl⟩
    rw [ackLoop_done seq b count (by omega)]
    rfl
  | succ n ih =>
    intro b count hs hlen
    cases hq : b.chanbuf.items with
    | nil => rw [hq] at hlen; simp at hlen
    | cons v rest =>
      obtain ⟨ch1, hr, hi, hc⟩ := Chan.recv_cons b.chanbuf v rest hq
      have hlen1 : n ≤ rest.length := by
        rw [hq] at hlen
        simpa using hlen
      have hw : m.wrap (b.lastack + 1) = b.lastack + 1 :=
        m.wrap_of_range _ (by have := b.lastack_range.1; omega)
          (by push_cast at hs; omega)
      obtain ⟨b1, hb1, hitems, hcap, hack, hseq⟩ :=
        ih ⟨b.seq, ch1, m.wrap (b.lastack + 1), b.seq_range, m.wrap_range _⟩ (count + 1)
          (by simp only [hw]; push_cast at hs; omega) (by simpa [hi] using hlen1)
      refine ⟨b1, ?_, ?_, ?_, hack, hseq⟩
      · unfold ackLoop
        rw [if_pos (by push_cast at hs; omega)]
        split
        · rename_i hnone
          rw [hr] at hnone
          exact absurd hnone (by simp)
        · rename_i v0 ch0 hsome
          rw [hr] at hsome
          simp only [Option.some.injEq, Prod.mk.injEq] at hsome
          obtain ⟨_, hch⟩ := hsome
          subst hch
          rw [hb1]
          congr 1
          omega
      · rw [hitems]
        simp [hi]
      · rw [hcap]
        exact hc

theorem precheck_exact (b : SequentialBufferChanImpl m)
    (hsum : b.lastack + (b.chanbuf.items.length : Int) ≤ m.maxInt) :
    m.wrap (b.lastack + b.chanbuf.len) = b.lastack + (b.chanbuf.items.length : Int) := by
  unfold Chan.len
  exact m.wrap_of_range _ (by have := b.lastack_range.1; omega) hsum

theorem precheck_wrapped (b : SequentialBufferChanImpl m)
    (hsum : m.maxInt < b.lastack + (b.chanbuf.items.length : Int)) :
    m.wrap (b.lastack + b.chanbuf.len) < b.lastack := by
  have h1 := b.chanbuf.len_lt_half
  have h2 := b.lastack_range.2
  have hpos := m.half_pos
  unfold Chan.len
  rw [m.wrap_above _ hsum (by omega)]
  omega

theorem ack_panics (b : SequentialBufferChanImpl m) (s : Int)
    (h : m.wrap (b.lastack + b.chanbuf.len) < s) :
    Ack b s = .panicked "Improper use" b := by
  unfold Ack
  simp only [if_pos h]

theorem ack_noop (b : SequentialBufferChanImpl m) (s : Int) (h : s ≤ b.lastack)
    (hpre : ¬ m.wrap (b.lastack + b.chanbuf.len) < s) :
    Ack b s = .returned 0 b := by
  unfold Ack
  simp only [if_neg hpre]
  exact ackLoop_done s b 0 h

theorem ack_spec (b : SequentialBufferChanImpl m) (s : Int) (n : Nat)
    (hs : s - b.lastack = (n : Int)) (hlen : n ≤ b.chanbuf.items.length)
    (hsum : b.lastack + (b.chanbuf.items.length : Int) ≤ m.maxInt) :
    ∃ b1, Ack b s = .returned n b1 ∧
      b1.chanbuf.items = b.chanbuf.items.drop n ∧ b1.chanbuf.cap = b.chanbuf.cap ∧
      b1.lastack = s ∧ b1.seq = b.seq := by
  obtain ⟨b1, h1, h2, h3, h4, h5⟩ := ackLoop_spec s (by omega) n b 0 hs hlen
  refine ⟨b1, ?_, h2, h3, h4, h5⟩
  unfold Ack
  have hpre : ¬ m.wrap (b.lastack + b.chanbuf.len) < s := by
    rw [precheck_exact b hsum]
    omega
  simp only [if_neg hpre]
  rw [h1]
  simp

/-- The three ways a call of `Ack` goes: the pre-check fails and it panics;
the pre-check passes with `s` at or below the cursor and nothing happens; or
the pre-check passes with `s` above the cursor, which only happens when
cursor plus length is an `int`, and the entries up to `s` are retired. -/
theorem ack_cases (b : SequentialBufferChanImpl m) (s : Int) :
    (m.wrap (b.lastack + b.chanbuf.len) < s ∧ Ack b s = .panicked "Improper use" b) ∨
    (¬ m.wrap (b.lastack + b.chanbuf.len) < s ∧ s ≤ b.lastack ∧ Ack b s = .returned 0 b) ∨
    (¬ m.wrap (b.lastack + b.chanbuf.len) < s ∧ b.lastack < s ∧
      b.lastack + (b.chanbuf.items.length : Int) ≤ m.maxInt ∧
      (s - b.lastack).toNat ≤ b.chanbuf.items.length ∧
      ∃ b1, Ack b s = .returned (s - b.lastack).toNat b1 ∧
        b1.chanbuf.items = b.chanbuf.items.drop (s - b.lastack).toNat ∧
        b1.chanbuf.cap = b.chanbuf.cap ∧ b1.lastack = s ∧ b1.seq = b.seq) := by
  by_cases hp : m.wrap (b.lastack + b.chanbuf.len) < s
  · exact Or.inl ⟨hp, ack_panics b s hp⟩
  · by_cases hle : s ≤ b.lastack
    · exact Or.inr (Or.inl ⟨hp, hle, ack_noop b s hle hp⟩)
    · have hsum : b.lastack + (b.chanbuf.items.length : Int) ≤ m.maxInt := by
        by_contra hgt
        have := precheck_wrapped b (by omega)
        omega
      have hlen : (s - b.lastack).toNat ≤ b.chanbuf.items.length := by
        rw [precheck_exact b hsum] at hp
        omega
      obtain ⟨b1, h1, r⟩ := ack_spec b s (s - b.lastack).toNat (by omega) hlen hsum
      exact Or.inr (Or.inr ⟨hp, by omega, hsum, hlen, b1, h1, r⟩)

end SequentialBufferChanImpl
namespace SequentialBufferChanImpl

variable {m : Machine}

theorem resetDrain_spec (q : List Payload) :
    ∀ (b : SequentialBufferChanImpl m) (ret : List Payload) (i : Nat),
      b.chanbuf.items = q → i + q.length ≤ ret.length →
      ∃ b1, resetDrain b ret i =
          .returned (ret.take i ++ q ++ ret.drop (i + q.length), i + q.length) b1 ∧
        b1.chanbuf.items = [] ∧ b1.chanbuf.cap = b.chanbuf.cap ∧
        b1.lastack = b.lastack ∧ b1.seq = b.seq := by
  induction q with
  | nil =>
    intro b ret i hq _
    refine ⟨b, ?_, hq, rfl, rfl, rfl⟩
    unfold resetDrain
    have : ¬ b.chanbuf.len > 0 := by
      unfold Chan.len
      rw [hq]
      simp
    rw [if_neg this]
    simp
  | cons v rest ih =>
    intro b ret i hq hlen
    obtain ⟨ch1, hr, hi, hc⟩ := Chan.recv_cons b.chanbuf v rest hq
    have hlt : i < ret.length := by
      simp only [List.length_cons] at hlen
      omega
    obtain ⟨b1, hb1, hitems, hcap, hack, hseq⟩ :=
      ih ⟨b.seq, ch1, b.lastack, b.seq_range, b.lastack_range⟩ (ret.set i v) (i + 1) hi
        (by simp only [List.length_cons, List.length_set] at hlen ⊢; omega)
    refine ⟨b1, ?_, hitems, by rw [hcap]; exact hc, hack, hseq⟩
    have hpos : b.chanbuf.len > 0 := by
      unfold Chan.len
      rw [hq]
      simp only [List.length_cons]
      omega
    unfold resetDrain
    rw [if_pos hpos]
    split
    · rename_i hnone
      rw [hr] at hnone
      exact absurd hnone (by simp)
    · rename_i v0 ch0 hsome
      rw [hr] at hsome
      simp only [Option.some.injEq, Prod.mk.injEq] at hsome
      obtain ⟨hv, hch⟩ := hsome
      subst hv
      subst hch
      simp only [if_pos hlt]
      rw [hb1, take_succ_set ret i v hlt, drop_succ_set ret i rest.length v]
      have e1 : i + 1 + rest.length = i + (v :: rest).length := by
        simp only [List.length_cons]
        omega
      rw [e1]
      simp only [List.append_assoc, List.singleton_append]

theorem resetReload_spec (ret : List Payload) :
    ∀ (b : SequentialBufferChanImpl m),
      b.chanbuf.items.length + ret.length ≤ b.chanbuf.cap →
      ∃ b1, resetReload b ret = .returned () b1 ∧
        b1.chanbuf.items = b.chanbuf.items ++ ret ∧ b1.chanbuf.cap = b.chanbuf.cap ∧
        b1.lastack = b.lastack ∧ b1.seq = b.seq := by
  induction ret with
  | nil =>
    intro b _
    exact ⟨b, rfl, by simp, rfl, rfl, rfl⟩
  | cons v rest ih =>
    intro b hlen
    simp only [List.length_cons] at hlen
    obtain ⟨ch1, hs, hi, hc⟩ := Chan.send_of_lt b.chanbuf v (by omega)
    obtain ⟨b1, hb1, hitems, hcap, hack, hseq⟩ :=
      ih ⟨b.seq, ch1, b.lastack, b.seq_range, b.lastack_range⟩ (by simp only [hi, hc, List.length_append, List.length_singleton]; omega)
    refine ⟨b1, ?_, ?_, by rw [hcap]; exact hc, hack, hseq⟩
    · unfold resetReload
      rw [hs]
      exact hb1
    · rw [hitems]
      simp [hi]

theorem reset_spec (b : SequentialBufferChanImpl m) :
    ∃ b1, Reset b = .returned b.chanbuf.items b1 ∧
      b1.chanbuf.items = b.chanbuf.items ∧ b1.chanbuf.cap = b.chanbuf.cap ∧
      b1.lastack = 0 ∧ b1.seq = (b.chanbuf.items.length : Int) + 1 := by
  have hlen0 : (List.replicate b.chanbuf.len.toNat ([] : Payload)).length
      = b.chanbuf.items.length := by
    simp [Chan.len]
  obtain ⟨b1, hd, hi1, hc1, ha1, hs1⟩ :=
    resetDrain_spec b.chanbuf.items b (List.replicate b.chanbuf.len.toNat []) 0 rfl
      (by rw [hlen0]; omega)
  have hret : List.take 0 (List.replicate b.chanbuf.len.toNat ([] : Payload))
      ++ b.chanbuf.items
      ++ List.drop (0 + b.chanbuf.items.length) (List.replicate b.chanbuf.len.toNat [])
      = b.chanbuf.items := by
    rw [List.drop_of_length_le (by rw [hlen0]; omega)]
    simp
  rw [hret] at hd
  obtain ⟨b2, hr, hi2, hc2, ha2, hs2⟩ :=
    resetReload_spec b.chanbuf.items b1 (by
      rw [hi1, hc1]
      simpa using b.chanbuf.le_cap)
  unfold Reset
  simp only [hd, hr]
  refine ⟨_, rfl, ?_, ?_, rfl, ?_⟩
  · simp only [hi2, hi1, List.nil_append]
  · simp only [hc2, hc1]
  · simp only [Chan.len, hi2, hi1, List.nil_append]

theorem addAll_spec (ps : List Payload) :
    ∀ (b : SequentialBufferChanImpl m) (acc : List Int),
      b.chanbuf.items.length + ps.length ≤ b.chanbuf.cap →
      b.seq + (ps.length : Int) ≤ m.maxInt →
      ∃ b1, addAll b acc ps =
          .returned (acc ++ (List.range ps.length).map (fun (k : Nat) => b.seq + (k : Int))) b1 ∧
        b1.chanbuf.items = b.chanbuf.items ++ ps ∧ b1.chanbuf.cap = b.chanbuf.cap ∧
        b1.seq = b.seq + (ps.length : Int) ∧ b1.lastack = b.lastack := by
  induction ps with
  | nil =>
    intro b acc _ _
    exact ⟨b, by simp [addAll], by simp, rfl, by simp, rfl⟩
  | cons p rest ih =>
    intro b acc hlen hmax
    simp only [List.length_cons] at hlen
    simp only [List.length_cons, Nat.cast_succ] at hmax
    obtain ⟨b1, ha, hi, hc, hs, hl⟩ := add_spec b p (by omega) (by omega)
    obtain ⟨b2, hb2, hi2, hc2, hs2, hl2⟩ := ih b1 (acc ++ [b.seq])
      (by simp only [hi, hc, List.length_append, List.length_singleton]; omega)
      (by rw [hs]; omega)
    refine ⟨b2, ?_, ?_, by rw [hc2, hc], ?_, by rw [hl2, hl]⟩
    · unfold addAll
      rw [ha]
      simp only
      rw [hb2, hs]
      congr 1
      simp only [List.length_cons, List.range_succ_eq_map, List.map_cons, List.map_map,
        List.append_assoc, List.singleton_append, Nat.cast_zero, add_zero]
      congr 2
      apply List.map_congr_left
      intro k _
      simp only [Function.comp_apply, Nat.cast_succ]
      omega
    · rw [hi2, hi]
      simp
    · rw [hs2, hs]
      simp only [List.length_cons, Nat.cast_succ]
      omega

theorem new_spec (m : Machine) (c : Nat) (hc : c ≤ m.maxChan) :
    ∃ b0, NewSequentialBufferChanImpl m (c : Int) = some b0 ∧
      b0.chanbuf.items = [] ∧ b0.chanbuf.cap = c ∧ b0.seq = 1 ∧ b0.lastack = 0 := by
  unfold NewSequentialBufferChanImpl Chan.make
  have : ¬ ((c : Int) < 0 ∨ (m.maxChan : Int) < (c : Int)) := by omega
  simp only [dif_neg this]
  exact ⟨_, rfl, rfl, by simp, rfl, rfl⟩

theorem new_returned_inv (maxItems : Int) (b : SequentialBufferChanImpl m)
    (h : NewSequentialBufferChanImpl m maxItems = some b) :
    0 ≤ maxItems ∧ maxItems ≤ (m.maxChan : Int) ∧ b.chanbuf.items = [] ∧
      (b.chanbuf.cap : Int) = maxItems ∧ b.seq = 1 ∧ b.lastack = 0 := by
  unfold NewSequentialBufferChanImpl Chan.make at h
  by_cases hbad : maxItems < 0 ∨ (m.maxChan : Int) < maxItems
  · simp [hbad] at h
  · simp only [dif_neg hbad, Option.some.injEq] at h
    rw [← h]
    exact ⟨by omega, by omega, rfl, by simp only [Int.toNat_of_nonneg (by omega : 0 ≤ maxItems)],
      rfl, rfl⟩

theorem add_returned_inv (b b1 : SequentialBufferChanImpl m) (p : Payload) (n : Int)
    (e : Option String) (h : Add b p = .returned (n, e) b1) :
    n = b.seq ∧ e = none ∧ b1.chanbuf.items = b.chanbuf.items ++ [p] ∧
      b1.chanbuf.cap = b.chanbuf.cap ∧ b1.seq = m.wrap (b.seq + 1) ∧
      b1.lastack = b.lastack := by
  by_cases hr : b.chanbuf.items.length < b.chanbuf.cap
  · obtain ⟨b2, h2, r⟩ := add_wraps b p hr
    rw [h2] at h
    simp only [Outcome.returned.injEq, Prod.mk.injEq] at h
    obtain ⟨⟨hn, he⟩, hb⟩ := h
    rw [← hb, ← hn, ← he]
    exact ⟨rfl, rfl, r⟩
  · rw [add_full b p hr] at h
    exact absurd h (by simp)

theorem reset_returned_inv (b b1 : SequentialBufferChanImpl m) (ps : List Payload)
    (h : Reset b = .returned ps b1) :
    ps = b.chanbuf.items ∧ b1.chanbuf.items = b.chanbuf.items ∧
      b1.chanbuf.cap = b.chanbuf.cap ∧ b1.lastack = 0 ∧
      b1.seq = (b.chanbuf.items.length : Int) + 1 := by
  obtain ⟨b2, h2, r⟩ := reset_spec b
  rw [h2] at h
  simp only [Outcome.returned.injEq] at h
  rw [← h.1, ← h.2]
  exact ⟨rfl, r⟩

theorem state_ext (b1 b2 : SequentialBufferChanImpl m)
    (hi : b1.chanbuf.items = b2.chanbuf.items) (hc : b1.chanbuf.cap = b2.chanbuf.cap)
    (hs : b1.seq = b2.seq) (hl : b1.lastack = b2.lastack) : b1 = b2 := by
  obtain ⟨s1, ⟨i1, c1, p1, q1⟩, l1, r1, t1⟩ := b1
  obtain ⟨s2, ⟨i2, c2, p2, q2⟩, l2, r2, t2⟩ := b2
  simp only at hi hc hs hl
  subst hi
  subst hc
  subst hs
  subst hl
  rfl

/-- What a returning `Ack` did, in any state: it kept the counter and the
capacity, it retired as many entries from the head of the queue as it
returned, and a second `Ack` of the same number right after it returns 0 and
changes nothing. -/
theorem ack_returned_any (b b1 : SequentialBufferChanImpl m) (s : Int) (k : Nat)
    (h : Ack b s = .returned k b1) :
    b1.seq = b.seq ∧ b1.chanbuf.cap = b.chanbuf.cap ∧ k ≤ b.chanbuf.items.length ∧
      b1.chanbuf.items = b.chanbuf.items.drop k ∧ Ack b1 s = .returned 0 b1 := by
  rcases ack_cases b s with ⟨_, hp⟩ | ⟨hpre, hle, h0⟩ | ⟨hpre, hlt, hsum, hlen, b2, h2, hi, hc, hl, hs⟩
  · rw [hp] at h
    exact absurd h (by simp)
  · rw [h0] at h
    simp only [Outcome.returned.injEq] at h
    rw [← h.1, ← h.2]
    exact ⟨rfl, rfl, Nat.zero_le _, by simp, h0⟩
  · rw [h2] at h
    simp only [Outcome.returned.injEq] at h
    rw [← h.1, ← h.2]
    refine ⟨hs, hc, hlen, hi, ?_⟩
    apply ack_noop b2 s (by omega)
    have hsum2 : b2.lastack + (b2.chanbuf.items.length : Int) ≤ m.maxInt := by
      rw [hi, hl, List.length_drop]
      omega
    rw [precheck_exact b2 hsum2, hl]
    omega

theorem ack_returns_full (b : SequentialBufferChanImpl m) (s : Int)
    (h : ¬ b.lastack + b.chanbuf.len < s)
    (hsum : b.lastack + (b.chanbuf.items.length : Int) ≤ m.maxInt) :
    ∃ b1, Ack b s = .returned (s - b.lastack).toNat b1 ∧
      (s - b.lastack).toNat ≤ b.chanbuf.items.length ∧
      b1.chanbuf.items = b.chanbuf.items.drop (s - b.lastack).toNat ∧
      b1.chanbuf.cap = b.chanbuf.cap ∧
      b1.lastack = b.lastack + ((s - b.lastack).toNat : Int) ∧ b1.seq = b.seq := by
  have hlen : (s - b.lastack).toNat ≤ b.chanbuf.items.length := by
    unfold Chan.len at h
    omega
  have hpre : ¬ m.wrap (b.lastack + b.chanbuf.len) < s := by
    rw [precheck_exact b hsum]
    unfold Chan.len at h
    exact h
  by_cases hle : s ≤ b.lastack
  · have h0 : (s - b.lastack).toNat = 0 := by omega
    rw [h0]
    exact ⟨b, ack_noop b s hle hpre, Nat.zero_le _, by simp, rfl, by simp, rfl⟩
  · obtain ⟨b1, h1, hi, hc, ha, hs⟩ :=
      ack_spec b s (s - b.lastack).toNat (by omega) hlen hsum
    exact ⟨b1, h1, hlen, hi, hc, by omega, hs⟩

theorem ack_returned_full (b b1 : SequentialBufferChanImpl m) (s : Int) (k : Nat)
    (hsum : b.lastack + (b.chanbuf.items.length : Int) ≤ m.maxInt)
    (h : Ack b s = .returned k b1) :
    ¬ b.lastack + b.chanbuf.len < s ∧ k = (s - b.lastack).toNat ∧
      k ≤ b.chanbuf.items.length ∧ b1.chanbuf.items = b.chanbuf.items.drop k ∧
      b1.chanbuf.cap = b.chanbuf.cap ∧ b1.lastack = b.lastack + (k : Int) ∧
      b1.seq = b.seq := by
  by_cases hp : b.lastack + b.chanbuf.len < s
  · rw [ack_panics b s (by rw [precheck_exact b hsum]; unfold Chan.len at hp; exact hp)] at h
    exact absurd h (by simp)
  · obtain ⟨b2, h2, r⟩ := ack_returns_full b s hp hsum
    rw [h2] at h
    simp only [Outcome.returned.injEq] at h
    rw [← h.1, ← h.2]
    exact ⟨hp, rfl, r⟩

end SequentialBufferChanImpl
namespace SequentialBufferChanImpl

variable {m : Machine}

theorem numberFrom_append (l : List Payload) (p : Payload) :
    ∀ s : Int, numberFrom s (l ++ [p]) = numberFrom s l ++ [(s + (l.length : Int), p)] := by
  induction l with
  | nil => intro s; simp [numberFrom]
  | cons q rest ih =>
    intro s
    have e : s + 1 + (rest.length : Int) = s + ((rest.length + 1 : Nat) : Int) := by
      push_cast
      omega
    rw [List.cons_append, numberFrom, ih (s + 1), numberFrom, List.cons_append,
      List.length_cons, e]

theorem numberFrom_fst_ge (l : List Payload) :
    ∀ (s : Int) (e : Int × Payload), e ∈ numberFrom s l → s ≤ e.1 ∧ e.1 < s + (l.length : Int) := by
  induction l with
  | nil => intro s e h; simp [numberFrom] at h
  | cons q rest ih =>
    intro s e h
    simp only [numberFrom, List.mem_cons] at h
    simp only [List.length_cons]
    push_cast
    rcases h with h | h
    · rw [h]
      simp only
      omega
    · have := ih (s + 1) e h
      omega

theorem numberFrom_map_fst (l : List Payload) :
    ∀ s : Int, (numberFrom s l).map Prod.fst
      = (List.range l.length).map (fun (k : Nat) => s + (k : Int)) := by
  induction l with
  | nil => intro s; simp [numberFrom]
  | cons q rest ih =>
    intro s
    simp only [numberFrom, List.map_cons, ih (s + 1), List.length_cons,
      List.range_succ_eq_map, List.map_map, Nat.cast_zero, add_zero, List.cons.injEq, true_and]
    apply List.map_congr_left
    intro k _
    simp only [Function.comp_apply, Nat.succ_eq_add_one]
    push_cast
    omega

theorem numberFrom_lookup (l : List Payload) :
    ∀ (s : Int) (i : Nat), (numberFrom s l).lookup (s + (i : Int)) = l[i]? := by
  induction l with
  | nil => intro s i; simp [numberFrom]
  | cons q rest ih =>
    intro s i
    cases i with
    | zero => simp [numberFrom, List.lookup]
    | succ j =>
      have hne : (s + ((j + 1 : Nat) : Int) == s) = false := by
        simp only [beq_eq_false_iff_ne, ne_eq]
        push_cast
        omega
      simp only [numberFrom, List.lookup, hne, List.getElem?_cons_succ]
      rw [← ih (s + 1) j]
      congr 1
      push_cast
      omega

theorem numberFrom_filter (l : List Payload) :
    ∀ (s : Int) (k : Nat) (t : Int), k ≤ l.length → t = s + (k : Int) - 1 →
      (numberFrom s l).filter (fun e => decide (t < e.1)) = numberFrom (t + 1) (l.drop k) := by
  induction l with
  | nil => intro s k t _ _; simp [numberFrom]
  | cons q rest ih =>
    intro s k t hk ht
    cases k with
    | zero =>
      have hs : t + 1 = s := by rw [ht]; simp
      rw [hs, List.drop_zero]
      apply List.filter_eq_self.mpr
      intro e he
      have := (numberFrom_fst_ge (q :: rest) s e he).1
      simp only [decide_eq_true_eq]
      omega
    | succ j =>
      have hhead : ¬ t < s := by rw [ht]; push_cast; omega
      simp only [numberFrom, List.filter_cons, hhead, decide_False, Bool.false_eq_true,
        if_false, List.drop_succ_cons]
      exact ih (s + 1) j t (by simpa using hk) (by rw [ht]; push_cast; omega)

theorem numberFrom_length (l : List Payload) :
    ∀ s : Int, (numberFrom s l).length = l.length := by
  induction l with
  | nil => intro s; rfl
  | cons q rest ih =>
    intro s
    simp only [numberFrom, List.length_cons, ih (s + 1)]

/-- No returning call changes the capacity of the channel. -/
theorem reachable_cap (c : Int) (b : SequentialBufferChanImpl m)
    (issued : List (Int × Payload)) (h : Reachable c b issued) :
    (b.chanbuf.cap : Int) = c := by
  induction h with
  | fresh b h0 => exact (new_returned_inv c b h0).2.2.2.1
  | add b b1 issued p n e _ h1 ih =>
    rw [(add_returned_inv b b1 p n e h1).2.2.2.1]
    exact ih
  | ack b b1 issued s k _ h1 ih =>
    rw [(ack_returned_any b b1 s k h1).2.1]
    exact ih
  | canAdd b b1 issued r _ h1 ih =>
    simp only [CanAdd, Outcome.returned.injEq] at h1
    rw [← h1.2]
    exact ih
  | len b b1 issued n _ h1 ih =>
    simp only [Len, Outcome.returned.injEq] at h1
    rw [← h1.2]
    exact ih
  | reset b b1 issued ps _ h1 ih =>
    rw [(reset_returned_inv b b1 ps h1).2.2.1]
    exact ih

/-- What holds of every reachable state in whose epoch the counter has not
wrapped: the record is a list of payloads numbered from 1, the queue is that
list without its first `lastack` entries, and the counter is one above its
length. -/
theorem reachable_inv (c : Int) (b : SequentialBufferChanImpl m)
    (issued : List (Int × Payload)) (h : Reachable c b issued) :
    (issued.length : Int) < m.maxInt →
    ∃ all : List Payload, issued = numberFrom 1 all ∧ 0 ≤ b.lastack ∧
      b.lastack ≤ (all.length : Int) ∧ b.chanbuf.items = all.drop b.lastack.toNat ∧
      b.seq = (all.length : Int) + 1 := by
  induction h with
  | fresh b h0 =>
    intro _
    obtain ⟨_, _, hi, hc, hs, hl⟩ := new_returned_inv c b h0
    exact ⟨[], rfl, by omega, by simp [hl], by simp [hi], by simp [hs]⟩
  | add b b1 issued p n e _ h1 ih =>
    intro hbound
    simp only [List.length_append, List.length_singleton] at hbound
    push_cast at hbound
    obtain ⟨all, hiss, h0, hle, hitems, hseq⟩ := ih (by omega)
    have hlen : issued.length = all.length := by rw [hiss, numberFrom_length]
    rw [hlen] at hbound
    obtain ⟨hn, _, hi1, hc1, hs1, hl1⟩ := add_returned_inv b b1 p n e h1
    rw [m.wrap_of_range _ (by have := b.seq_range.1; omega) (by omega)] at hs1
    refine ⟨all ++ [p], ?_, by rw [hl1]; exact h0, ?_, ?_, ?_⟩
    · rw [numberFrom_append, hiss, hn, hseq]
      congr 3
      omega
    · rw [hl1]
      simp only [List.length_append, List.length_singleton]
      push_cast
      omega
    · rw [hi1, hl1, hitems, List.drop_append_of_le_length (by omega)]
    · rw [hs1, hseq]
      simp only [List.length_append, List.length_singleton]
      push_cast
      omega
  | ack b b1 issued s k _ h1 ih =>
    intro hbound
    obtain ⟨all, hiss, h0, hle, hitems, hseq⟩ := ih hbound
    have hlen : issued.length = all.length := by rw [hiss, numberFrom_length]
    rw [hlen] at hbound
    have hsum : b.lastack + (b.chanbuf.items.length : Int) ≤ m.maxInt := by
      rw [hitems, List.length_drop]
      omega
    obtain ⟨_, _, hk, hi1, hc1, hl1, hs1⟩ := ack_returned_full b b1 s k hsum h1
    rw [hitems, List.length_drop] at hk
    refine ⟨all, hiss, by omega, by omega, ?_, by rw [hs1]; exact hseq⟩
    rw [hi1, hitems, List.drop_drop, hl1]
    congr 1
    omega
  | canAdd b b1 issued r _ h1 ih =>
    simp only [CanAdd, Outcome.returned.injEq] at h1
    rw [← h1.2]
    exact ih
  | len b b1 issued n _ h1 ih =>
    simp only [Len, Outcome.returned.injEq] at h1
    rw [← h1.2]
    exact ih
  | reset b b1 issued ps _ h1 ih =>
    intro _
    obtain ⟨hps, hi1, hc1, hl1, hs1⟩ := reset_returned_inv b b1 ps h1
    refine ⟨b.chanbuf.items, by rw [hps], by omega, by rw [hl1]; omega, ?_, hs1⟩
    rw [hi1, hl1]
    rfl

theorem pairedCycles_spec (ps : List Payload) :
    ∀ (b : SequentialBufferChanImpl m) (acks : List Nat),
      b.chanbuf.items = [] → 1 ≤ b.chanbuf.cap → b.seq = m.wrap (b.lastack + 1) →
      b.lastack + (ps.length : Int) ≤ m.maxInt →
      ∃ b1, pairedCycles b acks ps = .returned (acks ++ List.replicate ps.length 1) b1 ∧
        b1.chanbuf.items = [] ∧ b1.chanbuf.cap = b.chanbuf.cap ∧
        b1.seq = m.wrap (b1.lastack + 1) ∧
        b1.lastack = b.lastack + (ps.length : Int) := by
  induction ps with
  | nil =>
    intro b acks hi _ hs _
    exact ⟨b, by simp [pairedCycles], hi, rfl, hs, by simp⟩
  | cons p rest ih =>
    intro b acks hi hc hs hmax
    simp only [List.length_cons, Nat.cast_succ] at hmax
    have hseq : b.seq = b.lastack + 1 := by
      rw [hs, m.wrap_of_range _ (by have := b.lastack_range.1; omega) (by omega)]
    obtain ⟨b1, h1, hi1, hc1, hs1, hl1⟩ := add_wraps b p (by rw [hi]; exact hc)
    rw [hi] at hi1
    obtain ⟨b2, h2, hi2, hc2, hl2, hs2⟩ :=
      ack_spec b1 b.seq 1 (by rw [hl1, hseq]; simp) (by rw [hi1]; simp)
        (by rw [hl1, hi1]; simp only [List.nil_append, List.length_singleton]; push_cast; omega)
    rw [hi1] at hi2
    obtain ⟨b3, h3, hi3, hc3, hs3, hl3⟩ := ih b2 (acks ++ [1]) (by simpa using hi2)
      (by rw [hc2, hc1]; exact hc) (by rw [hs2, hs1, hl2])
      (by rw [hl2, hseq]; omega)
    refine ⟨b3, ?_, hi3, by rw [hc3, hc2, hc1], hs3, ?_⟩
    · unfold pairedCycles
      rw [h1]
      simp only
      rw [h2]
      simp only
      rw [h3]
      congr 1
      simp [List.replicate_succ]
    · rw [hl3, hl2, hseq]
      simp only [List.length_cons, Nat.cast_succ]
      omega

theorem pairedCycles_append (l1 l2 : List Payload) :
    ∀ (b b1 : SequentialBufferChanImpl m) (acks acks1 : List Nat),
      pairedCycles b acks l1 = .returned acks1 b1 →
      pairedCycles b acks (l1 ++ l2) = pairedCycles b1 acks1 l2 := by
  induction l1 with
  | nil =>
    intro b b1 acks acks1 h
    simp only [pairedCycles, Outcome.returned.injEq] at h
    rw [List.nil_append, h.1, h.2]
  | cons p rest ih =>
    intro b b1 acks acks1 h
    rw [List.cons_append]
    unfold pairedCycles at h
    conv_lhs => unfold pairedCycles
    cases hadd : Add b p with
    | blocked st => rw [hadd] at h; exact absurd h (by simp)
    | panicked msg st => rw [hadd] at h; exact absurd h (by simp)
    | returned r b2 =>
      rw [hadd] at h
      simp only at h ⊢
      cases hack : Ack b2 r.1 with
      | blocked st => rw [hack] at h; exact absurd h (by simp)
      | panicked msg st => rw [hack] at h; exact absurd h (by simp)
      | returned k b3 =>
        rw [hack] at h
        simp only at h ⊢
        exact ih b3 b1 _ acks1 h

end SequentialBufferChanImpl
namespace Machine

theorem one_le_maxInt (m : Machine) : 1 ≤ m.maxInt := by
  have h1 := m.maxChan_lt
  unfold maxInt
  omega

theorem wrap_max_succ (m : Machine) : m.wrap (m.maxInt + 1) = m.minInt := by
  have hpos := m.half_pos
  rw [m.wrap_above _ (by omega) (by omega)]
  unfold maxInt minInt
  omega

end Machine

namespace SequentialBufferChanImpl

variable {m : Machine}

/-- Paired cycles keep a buffer reachable: after `n` of them, `n` at most
`maxInt`, the queue is empty, the cursor is `n`, the counter is the wrapped
`n + 1`, and the record of the epoch is the `n` payloads numbered from 1. -/
theorem reachable_cycles (c : Int) (b0 : SequentialBufferChanImpl m)
    (h0 : NewSequentialBufferChanImpl m c = some b0) (hc : 1 ≤ c) (p : Payload) :
    ∀ n : Nat, (n : Int) ≤ m.maxInt →
      ∃ b : SequentialBufferChanImpl m,
        Reachable c b (numberFrom 1 (List.replicate n p)) ∧ b.chanbuf.items = [] ∧
        b.lastack = (n : Int) ∧ b.seq = m.wrap ((n : Int) + 1) := by
  intro n
  induction n with
  | zero =>
    intro _
    obtain ⟨_, _, hi, _, hs, hl⟩ := new_returned_inv c b0 h0
    refine ⟨b0, Reachable.fresh b0 h0, hi, by simp [hl], ?_⟩
    rw [hs]
    simp only [Nat.cast_zero, zero_add]
    exact (m.wrap_of_range 1 (by have := m.half_pos; unfold Machine.minInt; omega)
      m.one_le_maxInt).symm
  | succ n ih =>
    intro hn
    push_cast at hn
    obtain ⟨b, hreach, hi, hl, hs⟩ := ih (by omega)
    have hcap : (b.chanbuf.cap : Int) = c := reachable_cap c b _ hreach
    have hseq : b.seq = (n : Int) + 1 := by
      rw [hs, m.wrap_of_range _ (by have := m.half_pos; unfold Machine.minInt; omega) hn]
    obtain ⟨b1, h1, hi1, hc1, hs1, hl1⟩ := add_wraps b p (by rw [hi]; simp only [List.length_nil]; omega)
    rw [hi] at hi1
    obtain ⟨b2, h2, hi2, hc2, hl2, hs2⟩ :=
      ack_spec b1 b.seq 1 (by rw [hl1, hl, hseq]; simp) (by rw [hi1]; simp)
        (by rw [hl1, hl, hi1]; simp only [List.nil_append, List.length_singleton]; push_cast; omega)
    have hrec : numberFrom 1 (List.replicate (n + 1) p)
        = numberFrom 1 (List.replicate n p) ++ [(b.seq, p)] := by
      rw [List.replicate_succ', numberFrom_append, List.length_replicate, hseq]
      congr 3
      omega
    refine ⟨b2, ?_, ?_, ?_, ?_⟩
    · rw [hrec]
      exact Reachable.ack b1 b2 _ b.seq 1
        (Reachable.add b b1 _ p b.seq none hreach h1) h2
    · rw [hi2, hi1]
      rfl
    · rw [hl2, hseq]
      omega
    · rw [hs2, hs1, hs, m.wrap_add_wrap]
      congr 1

/-- One paired cycle more than `maxInt` of them: the last `Add` returns the
wrapped counter, the smallest `int`, and the `Ack` of that number retires
nothing. -/
theorem pairedCycles_past_maxInt (c : Nat) (hc : 1 ≤ c) (b0 : SequentialBufferChanImpl m)
    (h0 : NewSequentialBufferChanImpl m (c : Int) = some b0) (p : Payload) (N : Nat)
    (hN : (N : Int) = m.maxInt) :
    ∃ b1, b0.pairedCycles [] (List.replicate (N + 1) p)
        = .returned (List.replicate N 1 ++ [0]) b1 ∧
      b1.chanbuf.items = [p] ∧ b1.lastack = m.maxInt ∧ b1.seq = m.wrap (m.minInt + 1) := by
  obtain ⟨_, _, hi0, hc0, hs0, hl0⟩ := new_returned_inv (c : Int) b0 h0
  have hcap : b0.chanbuf.cap = c := by exact_mod_cast hc0
  have hone : m.wrap 1 = 1 :=
    m.wrap_of_range 1 (by have := m.half_pos; unfold Machine.minInt; omega) m.one_le_maxInt
  obtain ⟨b1, h1, hi1, hc1, hs1, hl1⟩ :=
    pairedCycles_spec (List.replicate N p) b0 [] hi0 (by rw [hcap]; exact hc)
      (by rw [hs0, hl0]; simp only [zero_add]; exact hone.symm)
      (by rw [hl0, List.length_replicate]; omega)
  rw [List.length_replicate] at h1 hl1
  rw [hl0, zero_add, hN] at hl1
  rw [hl1, m.wrap_max_succ] at hs1
  obtain ⟨b2, h2, hi2, hc2, hs2, hl2⟩ := add_wraps b1 p (by rw [hi1, hc1, hcap]; exact hc)
  rw [hi1] at hi2
  have hpre : ¬ m.wrap (b2.lastack + b2.chanbuf.len) < b1.seq := by
    unfold Chan.len
    rw [hl2, hl1, hi2, hs1]
    simp only [List.nil_append, List.length_singleton, Nat.cast_one]
    rw [m.wrap_max_succ]
    omega
  have hle : b1.seq ≤ b2.lastack := by
    rw [hl2, hl1, hs1]
    have := m.half_pos
    unfold Machine.minInt Machine.maxInt
    omega
  have h3 := ack_noop b2 b1.seq hle hpre
  refine ⟨b2, ?_, by simpa using hi2, by rw [hl2, hl1], by rw [hs2, hs1]⟩
  rw [List.replicate_succ', pairedCycles_append _ _ b0 b1 [] _ h1]
  unfold pairedCycles
  rw [h2]
  simp only
  rw [h3]
  simp only [pairedCycles, List.nil_append]

/-- An `Add` after `maxInt` paired cycles: the state is reachable, the queued
payload was handed out under the smallest `int`, and no entry on record has
the number one above the cursor. -/
theorem reachable_past_maxInt (c : Int) (b0 : SequentialBufferChanImpl m)
    (h0 : NewSequentialBufferChanImpl m c = some b0) (hc : 1 ≤ c) (p : Payload) (N : Nat)
    (hN : (N : Int) = m.maxInt) :
    ∃ (b : SequentialBufferChanImpl m) (issued : List (Int × Payload)),
      Reachable c b issued ∧ b.chanbuf.items = [p] ∧ b.lastack = m.maxInt ∧
      (m.minInt, p) ∈ issued ∧ ∀ e ∈ issued, e.1 ≠ b.lastack + 1 := by
  obtain ⟨b, hreach, hi, hl, hs⟩ := reachable_cycles c b0 h0 hc p N (by omega)
  have hcap : (b.chanbuf.cap : Int) = c := reachable_cap c b _ hreach
  rw [hN, m.wrap_max_succ] at hs
  rw [hN] at hl
  obtain ⟨b1, h1, hi1, _, _, hl1⟩ :=
    add_wraps b p (by rw [hi]; simp only [List.length_nil]; omega)
  rw [hs] at h1
  refine ⟨b1, _, Reachable.add b b1 _ p m.minInt none hreach h1, by rw [hi1, hi]; rfl,
    by rw [hl1, hl], by simp, ?_⟩
  intro e he
  rw [hl1, hl]
  simp only [List.mem_append, List.mem_singleton] at he
  rcases he with he | he
  · have := (numberFrom_fst_ge _ 1 e he).2
    rw [List.length_replicate] at this
    omega
  · rw [he]
    have := m.half_pos
    unfold Machine.minInt Machine.maxInt
    simp only
    omega

end SequentialBufferChanImpl

namespace Session

variable {m : Machine}

open SequentialBufferChanImpl

theorem step_remaining (s s1 : Session m) (h : Step s s1) : remaining s1 < remaining s := by
  cases h with
  | produce p rest n e b1 hsend _ =>
    unfold remaining
    simp only [hsend, List.length_cons, List.length_append, List.length_nil]
    omega
  | acknowledge n rest k b1 hack _ =>
    unfold remaining
    rw [hack]
    simp only [List.length_cons]
    omega

theorem runs_inv (c : Nat) (b0 : SequentialBufferChanImpl m) (ps : List Payload)
    (h0 : NewSequentialBufferChanImpl m (c : Int) = some b0)
    (hn : (ps.length : Int) ≤ m.maxInt) (s : Session m)
    (hr : Runs ⟨b0, ps, [], []⟩ s) :
    s.buf.chanbuf.cap = c ∧
      s.buf.lastack = (s.acks.length : Int) ∧
      s.buf.seq = m.wrap (s.buf.lastack + (s.buf.chanbuf.items.length : Int) + 1) ∧
      s.toAck = (List.range s.buf.chanbuf.items.length).map
        (fun (k : Nat) => s.buf.lastack + 1 + (k : Int)) ∧
      (∀ k ∈ s.acks, k = 1) ∧
      s.acks.length + s.toAck.length + s.toSend.length = ps.length := by
  induction hr with
  | refl =>
    obtain ⟨_, _, hi, hc, hs, hl⟩ := new_returned_inv (c : Int) b0 h0
    refine ⟨by exact_mod_cast hc, by simp [hl], ?_, by simp [hi], by simp, by simp⟩
    simp only [hi, hs, hl, List.length_nil, Nat.cast_zero, add_zero, zero_add]
    exact (m.wrap_of_range 1 (by have := m.half_pos; unfold Machine.minInt; omega)
      m.one_le_maxInt).symm
  | tail s s1 _ hstep ih =>
    obtain ⟨hcap, hlast, hseq, hack, hones, hcount⟩ := ih
    have htoAck : s.toAck.length = s.buf.chanbuf.items.length := by
      rw [hack]
      simp
    cases hstep with
    | produce p rest n e b1 hsend hadd =>
      obtain ⟨hn1, _, hi1, hc1, hs1, hl1⟩ := add_returned_inv s.buf b1 p n e hadd
      have hroom : s.buf.lastack + (s.buf.chanbuf.items.length : Int) + 1 ≤ m.maxInt := by
        rw [hsend] at hcount
        simp only [List.length_cons] at hcount
        omega
      have hseq1 : s.buf.seq = s.buf.lastack + (s.buf.chanbuf.items.length : Int) + 1 := by
        rw [hseq, m.wrap_of_range _ (by have := s.buf.lastack_range.1; omega) hroom]
      refine ⟨by rw [hc1, hcap], by rw [hl1]; exact hlast, ?_, ?_, hones, ?_⟩
      · simp only [hs1, hl1, hi1, hseq1, List.length_append, List.length_singleton]
        congr 1
        push_cast
        omega
      · simp only [hi1, hl1, List.length_append, List.length_singleton, List.range_succ,
          List.map_append, List.map_cons, List.map_nil]
        rw [hack, hn1, hseq1]
        congr 2
        omega
      · simp only [List.length_append, List.length_singleton]
        rw [hsend] at hcount
        simp only [List.length_cons] at hcount
        omega
    | acknowledge n rest k b1 hhead hcall =>
      have hsum : s.buf.lastack + (s.buf.chanbuf.items.length : Int) ≤ m.maxInt := by
        omega
      obtain ⟨_, hk, hklen, hi1, hc1, hl1, hs1⟩ :=
        ack_returned_full s.buf b1 n k hsum hcall
      cases hq : s.buf.chanbuf.items with
      | nil =>
        rw [hq] at hack
        rw [hack] at hhead
        simp at hhead
      | cons v tl =>
        rw [hq, List.length_cons, List.range_succ_eq_map] at hack
        rw [hack] at hhead
        simp only [List.map_cons, List.map_map, List.cons.injEq] at hhead
        obtain ⟨hn1, hrest⟩ := hhead
        have hk1 : k = 1 := by
          rw [hk, ← hn1]
          simp
        subst hk1
        refine ⟨by rw [hc1, hcap], ?_, ?_, ?_, ?_, ?_⟩
        · rw [hl1, hlast]
          simp only [List.length_append, List.length_singleton]
          push_cast
          rfl
        · simp only [hs1, hl1, hi1, hseq, hq, List.drop_one, List.tail_cons,
            List.length_cons]
          congr 1
          push_cast
          omega
        · simp only [hi1, hl1, hq, List.drop_one, List.tail_cons]
          rw [← hrest]
          apply List.map_congr_left
          intro j _
          simp only [Function.comp_apply, Nat.succ_eq_add_one]
          push_cast
          omega
        · intro j hj
          simp only [List.mem_append, List.mem_singleton] at hj
          rcases hj with hj | hj
          · exact hones j hj
          · exact hj
        · simp only [List.length_append, List.length_singleton]
          rw [hack] at hcount
          simp only [List.length_cons, List.length_map, List.length_range] at hcount
          rw [← hrest]
          simp only [List.length_map, List.length_range]
          omega

end Session

namespace MemoryBuffer

theorem writeAll_spec (ps : List Payload) :
    ∀ (mb : MemoryBuffer) (acc : List (Int × Option String)),
      writeAll mb acc ps
        = .returned (acc ++ ps.map (fun p => ((p.length : Int), none)))
            ⟨mb.buf ++ ps, mb.current⟩ := by
  induction ps with
  | nil =>
    intro mb acc
    simp [writeAll]
  | cons p rest ih =>
    intro mb acc
    unfold writeAll
    simp only [Write]
    rw [ih]
    simp

theorem readNext_at_end (mb : MemoryBuffer) (h : (mb.buf.length : Int) ≤ mb.current) :
    ReadNext mb = .returned ([], true, none) mb := by
  unfold ReadNext
  rw [if_pos h]

theorem readNext_inside (mb : MemoryBuffer) (i : Nat) (p : Payload)
    (hcur : mb.current = (i : Int)) (hp : mb.buf[i]? = some p) :
    ReadNext mb = .returned (p, false, none) ⟨mb.buf, mb.current + 1⟩ := by
  have hlt : i < mb.buf.length := by
    by_contra hge
    rw [List.getElem?_eq_none (by omega)] at hp
    exact absurd hp (by simp)
  unfold ReadNext
  rw [if_neg (by omega), if_neg (by omega)]
  have hi : mb.current.toNat = i := by omega
  rw [hi, hp]

theorem readMany_spec (n : Nat) :
    ∀ (mb : MemoryBuffer) (acc : List (Payload × Bool × Option String)) (i : Nat),
      mb.current = (i : Int) → i + n ≤ mb.buf.length →
      readMany mb acc n
        = .returned (acc ++ ((mb.buf.drop i).take n).map (fun p => (p, false, none)))
            ⟨mb.buf, mb.current + (n : Int)⟩ := by
  induction n with
  | zero =>
    intro mb acc i _ _
    simp [readMany]
  | succ n ih =>
    intro mb acc i hcur hlen
    have hlt : i < mb.buf.length := by omega
    have hp : mb.buf[i]? = some (mb.buf[i]) := List.getElem?_eq_getElem hlt
    unfold readMany
    rw [readNext_inside mb i _ hcur hp]
    simp only
    rw [ih ⟨mb.buf, mb.current + 1⟩ _ (i + 1) (by simp only [hcur]; push_cast; rfl)
      (by simp only; omega)]
    congr 1
    · rw [List.drop_eq_getElem_cons hlt]
      simp only [List.take_succ_cons, List.map_cons, List.append_assoc,
        List.singleton_append]
    · simp only [MemoryBuffer.mk.injEq, true_and]
      push_cast
      omega

theorem readMany_at_end (n : Nat) :
    ∀ (mb : MemoryBuffer) (acc : List (Payload × Bool × Option String)),
      (mb.buf.length : Int) ≤ mb.current →
      readMany mb acc n = .returned (acc ++ List.replicate n ([], true, none)) mb := by
  induction n with
  | zero =>
    intro mb acc _
    simp [readMany]
  | succ n ih =>
    intro mb acc h
    unfold readMany
    rw [readNext_at_end mb h]
    simp only
    rw [ih mb _ h]
    simp [List.replicate_succ]

theorem foldl_lengths (m : Machine) (l : List Payload) :
    ∀ a : Int, l.foldl (fun n b => m.wrap (n + (b.length : Int))) (m.wrap a)
      = m.wrap (a + (l.map (fun p => (p.length : Int))).sum) := by
  induction l with
  | nil => intro a; simp
  | cons p rest ih =>
    intro a
    simp only [List.foldl_cons, List.map_cons, List.sum_cons]
    rw [m.wrap_add_wrap, ih]
    congr 1
    omega

theorem lengths_nonneg (l : List Payload) :
    0 ≤ (l.map (fun p => (p.length : Int))).sum := by
  apply List.sum_nonneg
  intro x hx
  simp only [List.mem_map] at hx
  obtain ⟨p, _, hp⟩ := hx
  rw [← hp]
  exact Int.natCast_nonneg _

theorem byteSize_spec (m : Machine) (mb : MemoryBuffer) :
    mb.ByteSize m = .returned (m.wrap (mb.buf.map (fun p => (p.length : Int))).sum) mb := by
  have hw0 : m.wrap 0 = 0 :=
    m.wrap_of_range 0 (by have := m.half_pos; unfold Machine.minInt; omega)
      (by have := m.one_le_maxInt; omega)
  have hsum := foldl_lengths m mb.buf 0
  rw [hw0, zero_add] at hsum
  unfold ByteSize
  simp only
  rw [hsum]

theorem byteSize_replicate (m : Machine) (n L : Nat) (x : UInt8) (cur : Int) :
    (⟨List.replicate n (List.replicate L x), cur⟩ : MemoryBuffer).ByteSize m
      = .returned (m.wrap ((n : Int) * (L : Int)))
          ⟨List.replicate n (List.replicate L x), cur⟩ ∧
    ((List.replicate n (List.replicate L x)).map (fun p => (p.length : Int))).sum
      = (n : Int) * (L : Int) := by
  have hsum : ((List.replicate n (List.replicate L x)).map
      (fun p => (p.length : Int))).sum = (n : Int) * (L : Int) := by
    rw [List.map_replicate, List.sum_replicate, List.length_replicate]
    simp
  refine ⟨?_, hsum⟩
  rw [byteSize_spec]
  simp only [hsum]

theorem start_state (m : Machine) (mb0 : MemoryBuffer)
    (h : (∃ size, NewMemoryBuffer m size = some mb0) ∨
      (∃ mb : MemoryBuffer, mb.Clear = .returned () mb0)) :
    mb0 = ⟨[], 0⟩ := by
  rcases h with ⟨size, h⟩ | ⟨mb, h⟩
  · unfold NewMemoryBuffer at h
    by_cases hneg : size < 0 ∨ (m.maxSlice : Int) < size
    · simp [hneg] at h
    · simp only [if_neg hneg, Option.some.injEq] at h
      exact h.symm
  · simp only [Clear, List.take_zero, Outcome.returned.injEq, true_and] at h
    exact h.symm

end MemoryBuffer

namespace Machine

theorem eight_lt_maxInt (m : Machine) : 8 < m.maxInt := by
  have h1 := m.maxChan_lt
  have h2 := m.chan_small
  unfold maxInt
  omega

end Machine

/-! ## The contract of `Add`, `Ack`, `CanAdd` and `Reset` -/

open SequentialBufferChanImpl

variable {m : Machine}

/-- C1, as stated, fails at the largest `int`: on the 64-bit target, in a
state with room and the sequence counter at `9223372036854775807`, `Add`
returns that number and leaves the counter at `-9223372036854775808`, not one
higher. -/
theorem add_at_maxInt_wraps :
    ∃ b1 : SequentialBufferChanImpl amd64,
      (⟨9223372036854775807, ⟨[], 2, by decide, by decide⟩, 0, by decide, by decide⟩ :
          SequentialBufferChanImpl amd64).Add [97]
        = .returned (9223372036854775807, none) b1 ∧
      b1.seq = -9223372036854775808 ∧ b1.seq ≠ 9223372036854775807 + 1 := by
  obtain ⟨b1, h1, _, _, hs, _⟩ := add_wraps
    (⟨9223372036854775807, ⟨[], 2, by decide, by decide⟩, 0, by decide, by decide⟩ :
      SequentialBufferChanImpl amd64) [97] (by decide)
  have hw : amd64.wrap (9223372036854775807 + 1) = -9223372036854775808 := by decide
  rw [hw] at hs
  exact ⟨b1, h1, hs, by rw [hs]; decide⟩

/-- C1, amended: in a state with `len(chanbuf) < cap(chanbuf)`, `Add(p)` returns
the pair of the sequence counter's value before the call and a nil error; the
queue afterwards is the old queue followed by `p`, the capacity is the same
and the ack cursor is unchanged; the counter is one higher when it was below
the largest `int`, and is the smallest `int` when it was the largest. -/
theorem add_returns_counter_and_appends (b : SequentialBufferChanImpl m) (p : Payload)
    (h : b.chanbuf.len < b.chanbuf.capacity) :
    ∃ b1, b.Add p = .returned (b.seq, none) b1 ∧
      b1.chanbuf.items = b.chanbuf.items ++ [p] ∧ b1.chanbuf.cap = b.chanbuf.cap ∧
      (b.seq < m.maxInt → b1.seq = b.seq + 1) ∧
      (b.seq = m.maxInt → b1.seq = m.minInt) ∧ b1.lastack = b.lastack := by
  obtain ⟨b1, h1, hi, hc, hs, hl⟩ := add_wraps b p (by
    unfold Chan.len Chan.capacity at h
    omega)
  refine ⟨b1, h1, hi, hc, ?_, ?_, hl⟩
  · intro hlt
    rw [hs, m.wrap_of_range _ (by have := b.seq_range.1; omega) (by omega)]
  · intro heq
    rw [hs, heq, m.wrap_max_succ]

theorem add_returns_counter_and_appends_witness :
    (⟨7, ⟨[[97]], 2, by decide, by decide⟩, 3, by decide, by decide⟩ :
        SequentialBufferChanImpl amd64).chanbuf.len
        < (⟨7, ⟨[[97]], 2, by decide, by decide⟩, 3, by decide, by decide⟩ :
          SequentialBufferChanImpl amd64).chanbuf.capacity ∧
      ∃ b1, (⟨7, ⟨[[97]], 2, by decide, by decide⟩, 3, by decide, by decide⟩ :
            SequentialBufferChanImpl amd64).Add [98]
          = .returned (7, none) b1 ∧
        b1.chanbuf.items = [[97]] ++ [[98]] ∧ b1.chanbuf.cap = 2 ∧
        ((7 : Int) < amd64.maxInt → b1.seq = 7 + 1) ∧
        ((7 : Int) = amd64.maxInt → b1.seq = amd64.minInt) ∧ b1.lastack = 3 :=
  ⟨by decide,
    add_returns_counter_and_appends
      ⟨7, ⟨[[97]], 2, by decide, by decide⟩, 3, by decide, by decide⟩ [98] (by decide)⟩

/-- C2: on a buffer freshly created by `NewSequentialBufferChanImpl(c)`, as
many consecutive `Add` calls as there are payloads in `ps`, at most `c` of
them and with no `Ack` in between, all return, and the sequence numbers they
return are `1, 2, ..., n` in that order. -/
theorem fresh_adds_return_one_to_n (c : Nat) (ps : List Payload)
    (b0 : SequentialBufferChanImpl m)
    (h0 : NewSequentialBufferChanImpl m (c : Int) = some b0) (hn : ps.length ≤ c) :
    ∃ b1, b0.addAll [] ps
        = .returned ((List.range ps.length).map (fun (k : Nat) => (k : Int) + 1)) b1 := by
  obtain ⟨_, hmax, hi, hc, hs, _⟩ := new_returned_inv (c : Int) b0 h0
  have hc2 : b0.chanbuf.cap = c := by exact_mod_cast hc
  have hlt := m.maxChan_lt
  obtain ⟨b1, h1, _⟩ := addAll_spec ps b0 [] (by rw [hi, hc2]; simpa using hn)
    (by rw [hs]; unfold Machine.maxInt; omega)
  refine ⟨b1, ?_⟩
  rw [h1, hs]
  congr 1
  simp only [List.nil_append]
  apply List.map_congr_left
  intro k _
  omega

theorem fresh_adds_return_one_to_n_witness :
    NewSequentialBufferChanImpl amd64 ((3 : Nat) : Int)
        = some ⟨1, ⟨[], 3, by decide, by decide⟩, 0, by decide, by decide⟩ ∧
      ([[97], [98], [99]] : List Payload).length ≤ 3 ∧
      ∃ b1, (⟨1, ⟨[], 3, by decide, by decide⟩, 0, by decide, by decide⟩ :
            SequentialBufferChanImpl amd64).addAll [] [[97], [98], [99]]
          = .returned ((List.range ([[97], [98], [99]] : List Payload).length).map
              (fun (k : Nat) => (k : Int) + 1)) b1 :=
  ⟨rfl, by decide,
    fresh_adds_return_one_to_n 3 [[97], [98], [99]] _ rfl (by decide)⟩

/-- C3: after `n` Adds (one per payload of `ps`, `n ≤ c`) on a fresh buffer of
capacity `c`, `Ack(k)` with `k ≤ n` (in particular `1 ≤ k ≤ n`) returns exactly
`k`, and `Len()` is `n - k` afterwards. -/
theorem ack_after_adds_returns_k (c : Nat) (ps : List Payload) (k : Nat)
    (b0 : SequentialBufferChanImpl m)
    (h0 : NewSequentialBufferChanImpl m (c : Int) = some b0)
    (hn : ps.length ≤ c) (hk : k ≤ ps.length) :
    ∃ seqs b1 b2,
      b0.addAll [] ps = .returned seqs b1 ∧
      b1.Ack (k : Int) = .returned k b2 ∧
      b2.Len = .returned ((ps.length : Int) - (k : Int)) b2 := by
  obtain ⟨_, hmax, hi, hc, hs, hl⟩ := new_returned_inv (c : Int) b0 h0
  have hc2 : b0.chanbuf.cap = c := by exact_mod_cast hc
  have hlt := m.maxChan_lt
  obtain ⟨b1, h1, hi1, _, _, hl1⟩ := addAll_spec ps b0 [] (by rw [hi, hc2]; simpa using hn)
    (by rw [hs]; unfold Machine.maxInt; omega)
  rw [hi] at hi1
  simp only [List.nil_append] at hi1
  obtain ⟨b2, h2, hi2, _⟩ := ack_spec b1 (k : Int) k (by rw [hl1, hl]; omega)
    (by rw [hi1]; exact hk) (by rw [hl1, hl, hi1]; unfold Machine.maxInt; omega)
  refine ⟨_, b1, b2, h1, h2, ?_⟩
  unfold Len Chan.len
  rw [hi2, hi1, List.length_drop]
  congr 1
  omega

theorem ack_after_adds_returns_k_witness :
    NewSequentialBufferChanImpl amd64 ((3 : Nat) : Int)
        = some ⟨1, ⟨[], 3, by decide, by decide⟩, 0, by decide, by decide⟩ ∧
      ([[97], [98], [99]] : List Payload).length ≤ 3 ∧
      2 ≤ ([[97], [98], [99]] : List Payload).length ∧
      ∃ seqs b1 b2,
        (⟨1, ⟨[], 3, by decide, by decide⟩, 0, by decide, by decide⟩ :
            SequentialBufferChanImpl amd64).addAll [] [[97], [98], [99]]
          = .returned seqs b1 ∧
        b1.Ack ((2 : Nat) : Int) = .returned 2 b2 ∧
        b2.Len = .returned ((([[97], [98], [99]] : List Payload).length : Int)
          - ((2 : Nat) : Int)) b2 :=
  ⟨rfl, by decide, by decide,
    ack_after_adds_returns_k 3 [[97], [98], [99]] 2 _ rfl (by decide) (by decide)⟩

/-- C4, as stated, fails where cursor plus length is not an `int`: on the
64-bit target, with the ack cursor at `9223372036854775806` and three queued
entries, `s = 9223372036854775807` lies above the cursor and within cursor
plus length, yet `Ack(s)` panics and retires nothing. -/
theorem ack_near_maxInt_panics :
    (⟨5, ⟨[[97], [98], [99]], 4, by decide, by decide⟩, 9223372036854775806,
        by decide, by decide⟩ : SequentialBufferChanImpl amd64).lastack
        < 9223372036854775807 ∧
      (9223372036854775807 : Int) ≤ 9223372036854775806
        + (([[97], [98], [99]] : List Payload).length : Int) ∧
      (⟨5, ⟨[[97], [98], [99]], 4, by decide, by decide⟩, 9223372036854775806,
        by decide, by decide⟩ : SequentialBufferChanImpl amd64).Ack 9223372036854775807
        = .panicked "Improper use"
            ⟨5, ⟨[[97], [98], [99]], 4, by decide, by decide⟩, 9223372036854775806,
              by decide, by decide⟩ :=
  ⟨by decide, by decide, ack_panics _ _ (by decide)⟩

/-- C4, amended: in a state with ack cursor `a` and queue `q` such that
`a + |q|` is at most the largest `int`, for `a < s ≤ a + |q|`, `Ack(s)` returns
`s - a`; the queue afterwards is `q` without its first `s - a` elements (the
rest in the same order), the ack cursor is `s`, and the sequence counter and
the capacity are unchanged. -/
theorem ack_retires_oldest (b : SequentialBufferChanImpl m) (s : Int)
    (hsum : b.lastack + (b.chanbuf.items.length : Int) ≤ m.maxInt)
    (h1 : b.lastack < s) (h2 : s ≤ b.lastack + (b.chanbuf.items.length : Int)) :
    ∃ b1, b.Ack s = .returned (s - b.lastack).toNat b1 ∧
      ((s - b.lastack).toNat : Int) = s - b.lastack ∧
      b1.chanbuf.items = b.chanbuf.items.drop (s - b.lastack).toNat ∧
      b1.chanbuf.cap = b.chanbuf.cap ∧ b1.lastack = s ∧ b1.seq = b.seq := by
  obtain ⟨b1, h, hi, hc, ha, hs⟩ :=
    ack_spec b s (s - b.lastack).toNat (by omega) (by omega) hsum
  exact ⟨b1, h, by omega, hi, hc, ha, hs⟩

theorem ack_retires_oldest_witness :
    (⟨9, ⟨[[97], [98], [99]], 4, by decide, by decide⟩, 5, by decide, by decide⟩ :
        SequentialBufferChanImpl amd64).lastack
        + (([[97], [98], [99]] : List Payload).length : Int) ≤ amd64.maxInt ∧
      (⟨9, ⟨[[97], [98], [99]], 4, by decide, by decide⟩, 5, by decide, by decide⟩ :
        SequentialBufferChanImpl amd64).lastack < 7 ∧
      (7 : Int) ≤ (⟨9, ⟨[[97], [98], [99]], 4, by decide, by decide⟩, 5, by decide,
          by decide⟩ : SequentialBufferChanImpl amd64).lastack
        + (([[97], [98], [99]] : List Payload).length : Int) ∧
      ∃ b1, (⟨9, ⟨[[97], [98], [99]], 4, by decide, by decide⟩, 5, by decide, by decide⟩ :
            SequentialBufferChanImpl amd64).Ack 7
          = .returned ((7 : Int) - 5).toNat b1 ∧
        ((((7 : Int) - 5).toNat : Nat) : Int) = 7 - 5 ∧
        b1.chanbuf.items = ([[97], [98], [99]] : List Payload).drop ((7 : Int) - 5).toNat ∧
        b1.chanbuf.cap = 4 ∧ b1.lastack = 7 ∧ b1.seq = 9 :=
  ⟨by decide, by decide, by decide,
    ack_retires_oldest
      ⟨9, ⟨[[97], [98], [99]], 4, by decide, by decide⟩, 5, by decide, by decide⟩ 7
      (by decide) (by decide) (by decide)⟩

/-- C5, as stated, fails where cursor plus length is not an `int`: on the
64-bit target, with the ack cursor at `9223372036854775807` and one queued
entry, `Ack(0)` is at or below the cursor, yet it panics instead of returning
0. -/
theorem ack_zero_at_maxInt_panics :
    (0 : Int) ≤ (⟨3, ⟨[[97]], 2, by decide, by decide⟩, 9223372036854775807,
        by decide, by decide⟩ : SequentialBufferChanImpl amd64).lastack ∧
      (⟨3, ⟨[[97]], 2, by decide, by decide⟩, 9223372036854775807,
        by decide, by decide⟩ : SequentialBufferChanImpl amd64).Ack 0
        = .panicked "Improper use"
            ⟨3, ⟨[[97]], 2, by decide, by decide⟩, 9223372036854775807,
              by decide, by decide⟩ :=
  ⟨by decide, ack_panics _ _ (by decide)⟩

/-- C5, amended: in a state where cursor plus `Len()` is at most the largest
`int`, for `s` at or below the ack cursor (zero and negative `s` included)
`Ack(s)` returns 0 and leaves the whole state (queue, ack cursor, sequence
counter) as it was.  In every state, an `Ack(s)` that returned, repeated at
once, returns 0 and changes nothing; and Scenario B holds: capacity 2,
`Add("x")` returns 1, `Ack(1)` returns 1, `Ack(1)` again returns 0. -/
theorem ack_at_or_below_cursor_is_noop (b : SequentialBufferChanImpl m) (s : Int) :
    (b.lastack + (b.chanbuf.items.length : Int) ≤ m.maxInt → s ≤ b.lastack →
      b.Ack s = .returned 0 b) ∧
    (∀ n b1, b.Ack s = .returned n b1 → b1.Ack s = .returned 0 b1) ∧
    (∃ b0 b1 b2, NewSequentialBufferChanImpl m 2 = some b0 ∧
      b0.Add [120] = .returned (1, none) b1 ∧
      b1.Ack 1 = .returned 1 b2 ∧ b2.Ack 1 = .returned 0 b2) := by
  refine ⟨?_, ?_, ?_⟩
  · intro hsum hle
    apply ack_noop b s hle
    rw [precheck_exact b hsum]
    omega
  · intro n b1 h
    exact (ack_returned_any b b1 s n h).2.2.2.2
  · have h8 := m.chan_small
    have hmax := m.eight_lt_maxInt
    obtain ⟨b0, h0, hi0, hc0, hs0, hl0⟩ := new_spec m 2 (by omega)
    obtain ⟨b1, h1, hi1, _, _, hl1⟩ := add_spec b0 [120] (by rw [hi0, hc0]; decide)
      (by rw [hs0]; omega)
    obtain ⟨b2, h2, hi2, _, hl2, _⟩ := ack_spec b1 1 1 (by rw [hl1, hl0]; decide)
      (by rw [hi1, hi0]; decide)
      (by rw [hl1, hl0, hi1, hi0]; simp only [List.nil_append, List.length_singleton]; omega)
    refine ⟨b0, b1, b2, h0, ?_, h2, ?_⟩
    · rw [h1, hs0]
    · exact (ack_returned_any b1 b2 1 1 h2).2.2.2.2

theorem ack_at_or_below_cursor_is_noop_witness :
    (⟨9, ⟨[[97], [98]], 4, by decide, by decide⟩, 5, by decide, by decide⟩ :
        SequentialBufferChanImpl amd64).lastack
        + (([[97], [98]] : List Payload).length : Int) ≤ amd64.maxInt ∧
      (-4 : Int) ≤ (⟨9, ⟨[[97], [98]], 4, by decide, by decide⟩, 5, by decide, by decide⟩ :
        SequentialBufferChanImpl amd64).lastack ∧
      (⟨9, ⟨[[97], [98]], 4, by decide, by decide⟩, 5, by decide, by decide⟩ :
        SequentialBufferChanImpl amd64).Ack (-4)
        = .returned 0 ⟨9, ⟨[[97], [98]], 4, by decide, by decide⟩, 5, by decide, by decide⟩ :=
  ⟨by decide, by decide,
    (ack_at_or_below_cursor_is_noop
      ⟨9, ⟨[[97], [98]], 4, by decide, by decide⟩, 5, by decide, by decide⟩ (-4)).1
      (by decide) (by decide)⟩

/-- C6, as stated, fails where cursor plus length is not an `int`: on the
64-bit target, with the ack cursor at `9223372036854775806` and two queued
entries, `Ack(-5)` panics although `-5` is not above cursor plus `Len()`. -/
theorem ack_panics_below_exact_bound :
    ¬ ((⟨3, ⟨[[97], [98]], 2, by decide, by decide⟩, 9223372036854775806,
        by decide, by decide⟩ : SequentialBufferChanImpl amd64).lastack
        + (⟨3, ⟨[[97], [98]], 2, by decide, by decide⟩, 9223372036854775806,
          by decide, by decide⟩ : SequentialBufferChanImpl amd64).chanbuf.len < -5) ∧
      (⟨3, ⟨[[97], [98]], 2, by decide, by decide⟩, 9223372036854775806,
        by decide, by decide⟩ : SequentialBufferChanImpl amd64).Ack (-5)
        = .panicked "Improper use"
            ⟨3, ⟨[[97], [98]], 2, by decide, by decide⟩, 9223372036854775806,
              by decide, by decide⟩ :=
  ⟨by decide, ack_panics _ _ (by decide)⟩

/-- C6, amended: `Ack(s)` panics exactly when `s` is above the `int` sum of ack
cursor and `Len()`, which is cursor plus `Len()` whenever that is at most the
largest `int`.  When it panics, the panic is "Improper use" and the state it
leaves is the state before the call (no entry removed, ack cursor and
sequence counter unchanged), and no count is returned.  In every state
reachable from a fresh buffer in whose epoch fewer than the largest `int`
numbers were handed out, the numbers handed out are `1, ..., n` and `Ack(s)`
panics exactly when `s` is above the highest of them. -/
theorem ack_panics_iff_beyond_issued (b : SequentialBufferChanImpl m) (s : Int) :
    ((∃ msg st, b.Ack s = .panicked msg st) ↔ m.wrap (b.lastack + b.chanbuf.len) < s) ∧
    (b.lastack + b.chanbuf.len ≤ m.maxInt →
      ((∃ msg st, b.Ack s = .panicked msg st) ↔ b.lastack + b.chanbuf.len < s)) ∧
    (∀ msg st, b.Ack s = .panicked msg st →
      msg = "Improper use" ∧ st = b ∧ ∀ k b1, b.Ack s ≠ .returned k b1) ∧
    (∀ c issued, Reachable c b issued → (issued.length : Int) < m.maxInt →
      issued.map Prod.fst = (List.range issued.length).map (fun (k : Nat) => (k : Int) + 1) ∧
      ((∃ msg st, b.Ack s = .panicked msg st) ↔ (issued.length : Int) < s)) := by
  have key : (∃ msg st, b.Ack s = .panicked msg st)
      ↔ m.wrap (b.lastack + b.chanbuf.len) < s := by
    constructor
    · rintro ⟨msg, st, h⟩
      rcases ack_cases b s with ⟨hp, _⟩ | ⟨_, _, h0⟩ | ⟨_, _, _, _, b1, h1, _⟩
      · exact hp
      · rw [h0] at h
        exact absurd h (by simp)
      · rw [h1] at h
        exact absurd h (by simp)
    · intro h
      exact ⟨_, _, ack_panics b s h⟩
  refine ⟨key, ?_, ?_, ?_⟩
  · intro hsum
    rw [key]
    unfold Chan.len at hsum ⊢
    rw [m.wrap_of_range _ (by have := b.lastack_range.1; omega) hsum]
  · intro msg st h
    have hp := key.mp ⟨msg, st, h⟩
    have h2 := ack_panics b s hp
    rw [h2] at h
    simp only [Outcome.panicked.injEq] at h
    refine ⟨h.1.symm, h.2.symm, ?_⟩
    intro k b1 hr
    rw [h2] at hr
    exact absurd hr (by simp)
  · intro c issued hreach hbound
    obtain ⟨all, hiss, h0, hle, hitems, _⟩ := reachable_inv c b issued hreach hbound
    have hlen : issued.length = all.length := by rw [hiss, numberFrom_length]
    refine ⟨?_, ?_⟩
    · rw [hlen, hiss, numberFrom_map_fst]
      apply List.map_congr_left
      intro k _
      omega
    · rw [key]
      unfold Chan.len
      rw [hlen] at hbound ⊢
      have hsum : b.lastack + (b.chanbuf.items.length : Int) = (all.length : Int) := by
        rw [hitems, List.length_drop]
        omega
      rw [hsum, m.wrap_of_range _ (by have := m.half_pos; unfold Machine.minInt; omega)
        (by omega)]

theorem ack_panics_iff_beyond_issued_witness :
    (⟨4, ⟨[[98], [99]], 3, by decide, by decide⟩, 1, by decide, by decide⟩ : SequentialBufferChanImpl amd64).lastack
        + (⟨4, ⟨[[98], [99]], 3, by decide, by decide⟩, 1, by decide, by decide⟩ : SequentialBufferChanImpl amd64).chanbuf.len ≤ amd64.maxInt ∧
      ((∃ msg st, (⟨4, ⟨[[98], [99]], 3, by decide, by decide⟩, 1, by decide, by decide⟩ : SequentialBufferChanImpl amd64).Ack 4 = .panicked msg st) ↔
        (⟨4, ⟨[[98], [99]], 3, by decide, by decide⟩, 1, by decide, by decide⟩ : SequentialBufferChanImpl amd64).lastack
          + (⟨4, ⟨[[98], [99]], 3, by decide, by decide⟩, 1, by decide, by decide⟩ : SequentialBufferChanImpl amd64).chanbuf.len < 4) :=
  ⟨by decide,
    (ack_panics_iff_beyond_issued ⟨4, ⟨[[98], [99]], 3, by decide, by decide⟩, 1, by decide, by decide⟩ 4).2.1 (by decide)⟩

/-- C7: `CanAdd()` returns true exactly when `Len()` is below the capacity and
false exactly when `Len()` equals the capacity, and the state after the call
is the state before it. -/
theorem canAdd_iff_below_capacity (b : SequentialBufferChanImpl m) :
    ∃ r n, b.CanAdd = .returned r b ∧ b.Len = .returned n b ∧
      (r = true ↔ n < b.chanbuf.capacity) ∧ (r = false ↔ n = b.chanbuf.capacity) := by
  refine ⟨decide (b.chanbuf.len < b.chanbuf.capacity), b.chanbuf.len, rfl, rfl, ?_, ?_⟩
  · simp
  · have hle := b.chanbuf.le_cap
    simp only [decide_eq_false_iff_not, Chan.len, Chan.capacity]
    omega

/-- C8: `Reset()` returns the queued payloads in FIFO order, and the queue
afterwards holds the same payloads in the same order (capacity unchanged):
the buffer is not emptied and `Len()` is the same before and after. -/
theorem reset_returns_queue_and_keeps_it (b : SequentialBufferChanImpl m) :
    ∃ b1 n, b.Reset = .returned b.chanbuf.items b1 ∧
      b1.chanbuf.items = b.chanbuf.items ∧ b1.chanbuf.cap = b.chanbuf.cap ∧
      b.Len = .returned n b ∧ b1.Len = .returned n b1 := by
  obtain ⟨b1, h, hi, hc, _⟩ := reset_spec b
  refine ⟨b1, b.chanbuf.len, h, hi, hc, rfl, ?_⟩
  unfold Len Chan.len
  rw [hi]

/-- C9: with `n = Len()` before the call, `Reset()` leaves the ack cursor at 0
and the sequence counter at `n + 1`, whatever both were before; so when
`n` is below the capacity the next `Add` returns `n + 1`. -/
theorem reset_reseeds_counters (b : SequentialBufferChanImpl m) :
    ∃ n ps b1, b.Len = .returned n b ∧ b.Reset = .returned ps b1 ∧
      b1.lastack = 0 ∧ b1.seq = n + 1 ∧
      (n < b.chanbuf.capacity → ∀ p, ∃ b2, b1.Add p = .returned (n + 1, none) b2) := by
  obtain ⟨b1, h, hi, hc, hl, hs⟩ := reset_spec b
  refine ⟨b.chanbuf.len, _, b1, rfl, h, hl, hs, ?_⟩
  intro hm p
  obtain ⟨b2, h2, _⟩ := add_wraps b1 p (by
    rw [hi, hc]
    unfold Chan.len Chan.capacity at hm
    omega)
  refine ⟨b2, ?_⟩
  rw [h2, hs]
  rfl

theorem reset_reseeds_counters_witness :
    ((1 : Int) < (⟨9, ⟨[[99]], 3, by decide, by decide⟩, 7, by decide, by decide⟩ :
        SequentialBufferChanImpl amd64).chanbuf.capacity) ∧
      ∃ b1, (⟨9, ⟨[[99]], 3, by decide, by decide⟩, 7, by decide, by decide⟩ :
            SequentialBufferChanImpl amd64).Reset
          = .returned [[99]] b1 ∧
        b1.lastack = 0 ∧ b1.seq = 2 ∧ ∃ b2, b1.Add [100] = .returned (2, none) b2 := by
  refine ⟨by decide, ?_⟩
  obtain ⟨n, ps, b1, hn, hr, hl, hs, hadd⟩ :=
    reset_reseeds_counters
      (⟨9, ⟨[[99]], 3, by decide, by decide⟩, 7, by decide, by decide⟩ :
        SequentialBufferChanImpl amd64)
  simp only [Len, Chan.len, Outcome.returned.injEq, and_true] at hn
  subst hn
  obtain ⟨hps, _⟩ := reset_returned_inv _ _ _ hr
  subst hps
  exact ⟨b1, hr, hl, hs, hadd (by decide) [100]⟩

/-- C10, as stated, fails: on a buffer of capacity 3, after `Add("a")`,
`Add("b")`, `Add("c")`, `Ack(2)` and `Reset()`, the first `Add` returns 2 (one
entry survived the reset), and therefore does not return 1. -/
theorem first_add_after_reset_returns_two :
    ∃ b0 seqs b1 k b2 ps b3 b4,
      NewSequentialBufferChanImpl amd64 3 = some b0 ∧
      b0.addAll [] [[97], [98], [99]] = .returned seqs b1 ∧
      b1.Ack 2 = .returned k b2 ∧
      b2.Reset = .returned ps b3 ∧
      b3.Add [100] = .returned (2, none) b4 ∧
      ¬ ∃ e b5, b3.Add [100] = .returned (1, e) b5 := by
  obtain ⟨b0, h0, hi0, hc0, hs0, hl0⟩ := new_spec amd64 3 (by decide)
  obtain ⟨b1, h1, hi1, hc1, _, hl1⟩ :=
    addAll_spec [[97], [98], [99]] b0 [] (by rw [hi0, hc0]; decide) (by rw [hs0]; decide)
  obtain ⟨b2, h2, hi2, hc2, _, _⟩ :=
    ack_spec b1 2 2 (by rw [hl1, hl0]; decide) (by rw [hi1, hi0]; decide)
      (by rw [hl1, hl0, hi1, hi0]; decide)
  obtain ⟨b3, h3, hi3, hc3, _, hs3⟩ := reset_spec b2
  have hitems : b3.chanbuf.items = [[99]] := by
    rw [hi3, hi2, hi1, hi0]
    rfl
  have hcap : b3.chanbuf.cap = 3 := by
    rw [hc3, hc2, hc1, hc0]
  have hseq : b3.seq = 2 := by
    rw [hs3, hi2, hi1, hi0]
    rfl
  obtain ⟨b4, h4, _⟩ := add_wraps b3 [100] (by rw [hitems, hcap]; decide)
  rw [hseq] at h4
  refine ⟨b0, _, b1, _, b2, _, b3, b4, h0, h1, h2, h3, h4, ?_⟩
  rintro ⟨e, b5, h5⟩
  rw [h4] at h5
  simp only [Outcome.returned.injEq, Prod.mk.injEq] at h5
  exact absurd h5.1.1 (by decide)

/-- C10, amended: immediately after a `Reset` that leaves `n` entries in the
queue, consecutive `Add` calls with no `Ack` in between (as many as fit in the
remaining capacity) return `n + 1, n + 2, ...`, each one more than the one
before; the first returns 1 only when the queue was empty. -/
theorem adds_after_reset_continue_from_survivors (b : SequentialBufferChanImpl m)
    (ps : List Payload) (h : b.chanbuf.items.length + ps.length ≤ b.chanbuf.cap) :
    ∃ n kept b1 b2, b.Len = .returned n b ∧ b.Reset = .returned kept b1 ∧
      b1.addAll [] ps
        = .returned ((List.range ps.length).map (fun (k : Nat) => n + 1 + (k : Int))) b2 := by
  obtain ⟨b1, h1, hi, hc, _, hs⟩ := reset_spec b
  have hcap := b.chanbuf.cap_le
  have hlt := m.maxChan_lt
  obtain ⟨b2, h2, _⟩ := addAll_spec ps b1 [] (by rw [hi, hc]; exact h)
    (by rw [hs]; unfold Machine.maxInt; omega)
  refine ⟨b.chanbuf.len, _, b1, b2, rfl, h1, ?_⟩
  rw [h2, hs]
  rfl

theorem adds_after_reset_continue_from_survivors_witness :
    (⟨9, ⟨[[99]], 3, by decide, by decide⟩, 7, by decide, by decide⟩ : SequentialBufferChanImpl amd64).chanbuf.items.length
        + ([[100], [101]] : List Payload).length
        ≤ (⟨9, ⟨[[99]], 3, by decide, by decide⟩, 7, by decide, by decide⟩ : SequentialBufferChanImpl amd64).chanbuf.cap ∧
      ∃ n kept b1 b2,
        (⟨9, ⟨[[99]], 3, by decide, by decide⟩, 7, by decide, by decide⟩ : SequentialBufferChanImpl amd64).Len
          = .returned n ⟨9, ⟨[[99]], 3, by decide, by decide⟩, 7, by decide, by decide⟩ ∧
        (⟨9, ⟨[[99]], 3, by decide, by decide⟩, 7, by decide, by decide⟩ : SequentialBufferChanImpl amd64).Reset
          = .returned kept b1 ∧
        b1.addAll [] [[100], [101]]
          = .returned ((List.range ([[100], [101]] : List Payload).length).map
              (fun (k : Nat) => n + 1 + (k : Int))) b2 :=
  ⟨by decide,
    adds_after_reset_continue_from_survivors ⟨9, ⟨[[99]], 3, by decide, by decide⟩, 7, by decide, by decide⟩ [[100], [101]]
      (by decide)⟩

/-- C11: Scenario A, step by step, on a buffer of capacity 3: `Add("a")`
returns 1, `Add("b")` returns 2, `Add("c")` returns 3; then `CanAdd()` is
false; `Ack(2)` returns 2 and `Len()` is 1; `Reset()` returns exactly `["c"]`;
and the next `Add("d")` returns 2. -/
theorem scenario_A (m : Machine) :
    ∃ b0 b1 b2 b3 b4 b5 b6,
      NewSequentialBufferChanImpl m 3 = some b0 ∧
      b0.Add [97] = .returned (1, none) b1 ∧
      b1.Add [98] = .returned (2, none) b2 ∧
      b2.Add [99] = .returned (3, none) b3 ∧
      b3.CanAdd = .returned false b3 ∧
      b3.Ack 2 = .returned 2 b4 ∧
      b4.Len = .returned 1 b4 ∧
      b4.Reset = .returned [[99]] b5 ∧
      b5.Add [100] = .returned (2, none) b6 := by
  have h8 := m.chan_small
  have hmax := m.eight_lt_maxInt
  obtain ⟨b0, h0, hi0, hc0, hs0, hl0⟩ := new_spec m 3 (by omega)
  obtain ⟨b1, h1, hi1, hc1, hs1, hl1⟩ := add_spec b0 [97] (by rw [hi0, hc0]; decide)
    (by rw [hs0]; omega)
  rw [hi0] at hi1
  rw [hc0] at hc1
  rw [hs0] at h1 hs1
  rw [hl0] at hl1
  obtain ⟨b2, h2, hi2, hc2, hs2, hl2⟩ := add_spec b1 [98] (by rw [hi1, hc1]; decide)
    (by rw [hs1]; omega)
  rw [hi1] at hi2
  rw [hc1] at hc2
  rw [hs1] at h2 hs2
  rw [hl1] at hl2
  obtain ⟨b3, h3, hi3, hc3, hs3, hl3⟩ := add_spec b2 [99] (by rw [hi2, hc2]; decide)
    (by rw [hs2]; omega)
  rw [hi2] at hi3
  rw [hc2] at hc3
  rw [hs2] at h3 hs3
  rw [hl2] at hl3
  have hcan : b3.CanAdd = .returned false b3 := by
    unfold CanAdd Chan.len Chan.capacity
    rw [hi3, hc3]
    rfl
  obtain ⟨b4, h4, hi4, hc4, hl4, hs4⟩ :=
    ack_spec b3 2 2 (by rw [hl3]; decide) (by rw [hi3]; decide)
      (by rw [hl3, hi3]; simp only [List.nil_append, List.length_cons, List.length_nil,
        List.cons_append]; omega)
  rw [hi3] at hi4
  rw [hc3] at hc4
  have hlen : b4.Len = .returned 1 b4 := by
    unfold Len Chan.len
    rw [hi4]
    rfl
  obtain ⟨b5, h5, hi5, hc5, hl5, hs5⟩ := reset_spec b4
  rw [hi4] at h5 hi5 hs5
  rw [hc4] at hc5
  obtain ⟨b6, h6, _⟩ := add_wraps b5 [100] (by rw [hi5, hc5]; decide)
  rw [hs5] at h6
  exact ⟨b0, b1, b2, b3, b4, b5, b6, h0, h1, h2, h3, hcan, h4, hlen, h5, h6⟩

/-- C12: when `Len()` equals the capacity, `Add` does not complete: the call
is suspended at the send, with the state exactly as before it (payload not
enqueued, sequence counter and ack cursor unchanged).  In no state does `Add`
return a non-nil error, and in no state does it panic. -/
theorem add_blocks_when_full (b : SequentialBufferChanImpl m) (p : Payload) :
    (∀ n, b.Len = .returned n b → n = b.chanbuf.capacity → b.Add p = .blocked b) ∧
    (∀ n e b1, b.Add p = .returned (n, e) b1 → e = none) ∧
    (∀ msg st, b.Add p ≠ .panicked msg st) := by
  refine ⟨?_, ?_, ?_⟩
  · intro n hn hfull
    simp only [Len, Chan.len, Outcome.returned.injEq, and_true] at hn
    apply add_full
    unfold Chan.capacity at hfull
    omega
  · intro n e b1 h
    exact (add_returned_inv b b1 p n e h).2.1
  · intro msg st h
    by_cases hr : b.chanbuf.items.length < b.chanbuf.cap
    · obtain ⟨b2, h2, _⟩ := add_wraps b p hr
      rw [h2] at h
      exact absurd h (by simp)
    · rw [add_full b p hr] at h
      exact absurd h (by simp)

theorem add_blocks_when_full_witness :
    (⟨4, ⟨[[97], [98]], 2, by decide, by decide⟩, 1, by decide, by decide⟩ : SequentialBufferChanImpl amd64).Len
        = .returned 2 ⟨4, ⟨[[97], [98]], 2, by decide, by decide⟩, 1, by decide, by decide⟩ ∧
      (2 : Int) = (⟨4, ⟨[[97], [98]], 2, by decide, by decide⟩, 1, by decide, by decide⟩ :
        SequentialBufferChanImpl amd64).chanbuf.capacity ∧
      (⟨4, ⟨[[97], [98]], 2, by decide, by decide⟩, 1, by decide, by decide⟩ : SequentialBufferChanImpl amd64).Add [99]
        = .blocked ⟨4, ⟨[[97], [98]], 2, by decide, by decide⟩, 1, by decide, by decide⟩ :=
  ⟨rfl, by decide,
    (add_blocks_when_full ⟨4, ⟨[[97], [98]], 2, by decide, by decide⟩, 1, by decide, by decide⟩ [99]).1 2 rfl (by decide)⟩

/-- C13, as stated, fails past the largest `int`: on the 64-bit target, on a
buffer of capacity 8, in the run of `9223372036854775808` paired cycles the
last `Add` returns the wrapped counter and the `Ack` of that number returns
0, not 1, leaving one entry in the queue. -/
theorem last_paired_ack_past_maxInt_returns_zero :
    ∃ b0 b1, NewSequentialBufferChanImpl amd64 ((8 : Nat) : Int) = some b0 ∧
      b0.pairedCycles [] (List.replicate (9223372036854775807 + 1) [120])
        = .returned (List.replicate 9223372036854775807 1 ++ [0]) b1 ∧
      b1.chanbuf.items = [[120]] := by
  obtain ⟨b0, h0, _⟩ := new_spec amd64 8 (by decide)
  obtain ⟨b1, h1, hi, _⟩ :=
    pairedCycles_past_maxInt 8 (by decide) b0 h0 [120] 9223372036854775807 (by decide)
  exact ⟨b0, b1, h0, h1, hi⟩

/-- C13, amended: on a buffer of capacity `c ≥ 1` that the constructor
returned, paired `Add`/`Ack` cycles, one per payload of `ps` and at most as
many as the largest `int` (10,000 of them on capacity 8 included), complete.
Run one after the other, no call blocks or panics, each `Ack` returns 1, and
`Len()` is 0 at the end.  And however a scheduler interleaves the producer's
`Add` calls with the acknowledger's `Ack` calls (whole calls, the acknowledger
taking the returned numbers in order): every `Ack` returns 1 and none blocks
or panics; as long as a call is left to make one of the two actors can make
its next call (no deadlock); every call made brings the end closer; and when
none is left `Len()` is 0 and there was one `Ack` per payload. -/
theorem paired_cycles_complete (c : Nat) (hc : 1 ≤ c) (ps : List Payload)
    (b0 : SequentialBufferChanImpl m)
    (h0 : NewSequentialBufferChanImpl m (c : Int) = some b0)
    (hn : (ps.length : Int) ≤ m.maxInt) :
    (∃ b1, b0.pairedCycles [] ps = .returned (List.replicate ps.length 1) b1 ∧
      b1.Len = .returned 0 b1) ∧
    (∀ s, Session.Runs ⟨b0, ps, [], []⟩ s →
      (∀ k ∈ s.acks, k = 1) ∧
      (∀ n rest, s.toAck = n :: rest → ∃ b1, s.buf.Ack n = .returned 1 b1) ∧
      ((s.toSend ≠ [] ∨ s.toAck ≠ []) → ∃ s1, Session.Step s s1) ∧
      (∀ s1, Session.Step s s1 → s1.remaining < s.remaining) ∧
      (s.toSend = [] → s.toAck = [] →
        s.buf.Len = .returned 0 s.buf ∧ s.acks = List.replicate ps.length 1)) := by
  obtain ⟨_, _, hi0, hc0, hs0, hl0⟩ := new_returned_inv (c : Int) b0 h0
  have hcap0 : b0.chanbuf.cap = c := by exact_mod_cast hc0
  refine ⟨?_, ?_⟩
  · obtain ⟨b1, h1, hi1, _⟩ :=
      pairedCycles_spec ps b0 [] hi0 (by rw [hcap0]; exact hc)
        (by
          rw [hs0, hl0]
          simp only [zero_add]
          exact (m.wrap_of_range 1 (by have := m.half_pos; unfold Machine.minInt; omega)
            m.one_le_maxInt).symm)
        (by rw [hl0]; omega)
    refine ⟨b1, by simpa using h1, ?_⟩
    unfold Len Chan.len
    rw [hi1]
    rfl
  · intro s hr
    obtain ⟨hcap, hlast, hseq, hack, hones, hcount⟩ := Session.runs_inv c b0 ps h0 hn s hr
    have htoAck : s.toAck.length = s.buf.chanbuf.items.length := by
      rw [hack]
      simp
    have hsum : s.buf.lastack + (s.buf.chanbuf.items.length : Int) ≤ m.maxInt := by
      omega
    have hAck : ∀ n rest, s.toAck = n :: rest → ∃ b1, s.buf.Ack n = .returned 1 b1 := by
      intro n rest hhead
      cases hq : s.buf.chanbuf.items with
      | nil =>
        rw [hq] at hack
        rw [hack] at hhead
        simp at hhead
      | cons v tl =>
        rw [hq, List.length_cons, List.range_succ_eq_map] at hack
        rw [hack] at hhead
        simp only [List.map_cons, List.cons.injEq] at hhead
        obtain ⟨b1, h1, _⟩ := ack_spec s.buf n 1 (by rw [← hhead.1]; simp)
          (by rw [hq]; simp) hsum
        exact ⟨b1, h1⟩
    refine ⟨hones, hAck, ?_, fun s1 h => Session.step_remaining s s1 h, ?_⟩
    · intro hleft
      cases hta : s.toAck with
      | cons n rest =>
        obtain ⟨b1, h1⟩ := hAck n rest hta
        exact ⟨_, Session.Step.acknowledge s n rest 1 b1 hta h1⟩
      | nil =>
        cases hts : s.toSend with
        | nil =>
          rcases hleft with h | h
          · exact absurd hts h
          · exact absurd hta h
        | cons p rest =>
          have hempty : s.buf.chanbuf.items.length = 0 := by
            rw [← htoAck, hta]
            rfl
          obtain ⟨b1, h1, _⟩ := add_wraps s.buf p (by rw [hempty, hcap]; exact hc)
          exact ⟨_, Session.Step.produce s p rest _ _ b1 hts h1⟩
    · intro hts hta
      have hempty : s.buf.chanbuf.items.length = 0 := by
        rw [← htoAck, hta]
        rfl
      refine ⟨?_, ?_⟩
      · unfold Len Chan.len
        rw [hempty]
        rfl
      · rw [hts, hta] at hcount
        simp only [List.length_nil, Nat.add_zero] at hcount
        rw [← hcount]
        exact List.eq_replicate_iff.mpr ⟨rfl, hones⟩

theorem paired_cycles_complete_witness :
    1 ≤ 8 ∧
      NewSequentialBufferChanImpl amd64 ((8 : Nat) : Int)
        = some ⟨1, ⟨[], 8, by decide, by decide⟩, 0, by decide, by decide⟩ ∧
      (((List.replicate 10000 ([120] : Payload)).length : Nat) : Int) ≤ amd64.maxInt ∧
      (∃ b1, (⟨1, ⟨[], 8, by decide, by decide⟩, 0, by decide, by decide⟩ :
            SequentialBufferChanImpl amd64).pairedCycles [] (List.replicate 10000 [120])
          = .returned (List.replicate (List.replicate 10000 ([120] : Payload)).length 1) b1 ∧
        b1.Len = .returned 0 b1) ∧
      (∀ s, Session.Runs
          ⟨(⟨1, ⟨[], 8, by decide, by decide⟩, 0, by decide, by decide⟩ :
            SequentialBufferChanImpl amd64), List.replicate 10000 [120], [], []⟩ s →
        (∀ k ∈ s.acks, k = 1) ∧
        (∀ n rest, s.toAck = n :: rest → ∃ b1, s.buf.Ack n = .returned 1 b1) ∧
        ((s.toSend ≠ [] ∨ s.toAck ≠ []) → ∃ s1, Session.Step s s1) ∧
        (∀ s1, Session.Step s s1 → s1.remaining < s.remaining) ∧
        (s.toSend = [] → s.toAck = [] →
          s.buf.Len = .returned 0 s.buf ∧
          s.acks = List.replicate (List.replicate 10000 ([120] : Payload)).length 1)) :=
  ⟨by decide, rfl, by rw [List.length_replicate]; decide,
    paired_cycles_complete 8 (by decide) (List.replicate 10000 [120]) _ rfl
      (by rw [List.length_replicate]; decide)⟩

/-- C14, as stated, fails once the counter has wrapped: on the 64-bit target,
on a buffer of capacity 8, after `9223372036854775807` paired cycles and one
more `Add`, the state is reachable, its queue holds one payload, which `Add`
handed out under the number `-9223372036854775808`, and no entry of the epoch
has the number cursor plus 1. -/
theorem queued_entry_past_maxInt_is_not_cursor_plus_one :
    ∃ (b : SequentialBufferChanImpl amd64) (issued : List (Int × Payload)),
      Reachable 8 b issued ∧ b.chanbuf.items = [[120]] ∧
      b.lastack = 9223372036854775807 ∧
      (-9223372036854775808, [120]) ∈ issued ∧ ∀ e ∈ issued, e.1 ≠ b.lastack + 1 := by
  obtain ⟨b0, h0, _⟩ := new_spec amd64 8 (by decide)
  have h0c : NewSequentialBufferChanImpl amd64 8 = some b0 := h0
  obtain ⟨b, issued, hreach, hi, hl, hmem, hno⟩ :=
    reachable_past_maxInt 8 b0 h0c (by decide) [120] 9223372036854775807 (by decide)
  exact ⟨b, issued, hreach, hi, hl, hmem, hno⟩

/-- C14, amended: in every state reachable from a fresh buffer by returning
calls, in whose epoch fewer numbers than the largest `int` were handed out,
the entries handed out in the current epoch (by `Add`, or renumbered by the
last `Reset`) whose number is above the ack cursor are exactly the queued
payloads, in FIFO order, under the numbers `cursor + 1, ..., cursor + Len()`;
so the `j`-th queued payload (counting from 1) is the payload on record under
the number `cursor + j`. -/
theorem queue_holds_numbers_above_cursor (c : Int) (b : SequentialBufferChanImpl m)
    (issued : List (Int × Payload)) (h : Reachable c b issued)
    (hbound : (issued.length : Int) < m.maxInt) :
    issued.filter (fun e => decide (b.lastack < e.1))
        = numberFrom (b.lastack + 1) b.chanbuf.items ∧
      ∀ (j : Nat) (p : Payload), b.chanbuf.items[j]? = some p →
        issued.lookup (b.lastack + ((j : Int) + 1)) = some p := by
  obtain ⟨all, hiss, h0, hle, hitems, _⟩ := reachable_inv c b issued h hbound
  refine ⟨?_, ?_⟩
  · rw [hiss, hitems]
    exact numberFrom_filter all 1 b.lastack.toNat b.lastack (by omega) (by omega)
  · intro j p hj
    rw [hitems, List.getElem?_drop] at hj
    rw [hiss, ← hj, ← numberFrom_lookup all 1 (b.lastack.toNat + j)]
    congr 1
    push_cast
    omega

theorem queue_holds_numbers_above_cursor_witness :
    Reachable 2 (⟨2, ⟨[[97]], 2, by decide, by decide⟩, 0, by decide, by decide⟩ : SequentialBufferChanImpl amd64) [(1, [97])] ∧
      ((([((1 : Int), ([97] : Payload))]).length : Nat) : Int) < amd64.maxInt ∧
      ([((1 : Int), ([97] : Payload))]).filter
          (fun e => decide ((⟨2, ⟨[[97]], 2, by decide, by decide⟩, 0, by decide, by decide⟩ : SequentialBufferChanImpl amd64).lastack < e.1))
        = numberFrom ((⟨2, ⟨[[97]], 2, by decide, by decide⟩, 0, by decide, by decide⟩ : SequentialBufferChanImpl amd64).lastack + 1)
            [[97]] :=
  ⟨(Reachable.add
        (⟨1, ⟨[], 2, by decide, by decide⟩, 0, by decide, by decide⟩ :
          SequentialBufferChanImpl amd64) _ [] [97] 1 none
        (Reachable.fresh _ rfl) rfl), by decide,
    (queue_holds_numbers_above_cursor 2 ⟨2, ⟨[[97]], 2, by decide, by decide⟩, 0, by decide, by decide⟩ [(1, [97])]
      (Reachable.add
        (⟨1, ⟨[], 2, by decide, by decide⟩, 0, by decide, by decide⟩ :
          SequentialBufferChanImpl amd64) _ [] [97] 1 none
        (Reachable.fresh _ rfl) rfl) (by decide)).1⟩

/-- C15, as stated, fails once the counter has wrapped: on the 64-bit target,
on a buffer of capacity 8, the state after `9223372036854775807` paired
cycles is reachable, with an empty queue, the ack cursor at
`9223372036854775807` and the sequence counter at `-9223372036854775808`,
which is not cursor plus `Len()` plus 1. -/
theorem counter_after_maxInt_cycles_is_minInt :
    ∃ (b : SequentialBufferChanImpl amd64) (issued : List (Int × Payload)),
      Reachable 8 b issued ∧ b.Len = .returned 0 b ∧
      b.lastack = 9223372036854775807 ∧ b.seq = -9223372036854775808 ∧
      b.seq ≠ b.lastack + 0 + 1 := by
  obtain ⟨b0, h0, _⟩ := new_spec amd64 8 (by decide)
  have h0c : NewSequentialBufferChanImpl amd64 8 = some b0 := h0
  obtain ⟨b, hreach, hi, hl, hs⟩ :=
    reachable_cycles 8 b0 h0c (by decide) [120] 9223372036854775807 (by decide)
  have hw : amd64.wrap (((9223372036854775807 : Nat) : Int) + 1) = -9223372036854775808 := by
    decide
  rw [hw] at hs
  have hl2 : b.lastack = 9223372036854775807 := hl
  refine ⟨b, _, hreach, ?_, hl2, hs, by rw [hs, hl2]; decide⟩
  unfold Len Chan.len
  rw [hi]
  rfl

/-- C15, amended: in every state reachable from a fresh buffer by returning
calls (`Add`, `Ack`, `CanAdd`, `Len`, `Reset`), in whose epoch fewer numbers
than the largest `int` were handed out, the sequence counter equals ack
cursor plus `Len()` plus 1, the ack cursor is not negative, and the numbers
handed out in the current epoch are exactly `1, ..., cursor + Len()`: the
bound that `Ack` checks against is the highest of them. -/
theorem counter_is_cursor_plus_len_plus_one (c : Int) (b : SequentialBufferChanImpl m)
    (issued : List (Int × Payload)) (h : Reachable c b issued)
    (hbound : (issued.length : Int) < m.maxInt) :
    ∃ n, b.Len = .returned n b ∧ b.seq = b.lastack + n + 1 ∧ 0 ≤ b.lastack ∧
      (issued.length : Int) = b.lastack + n ∧
      m.wrap (b.lastack + b.chanbuf.len) = b.lastack + n ∧
      issued.map Prod.fst = (List.range issued.length).map (fun (k : Nat) => (k : Int) + 1) := by
  obtain ⟨all, hiss, h0, hle, hitems, hseq⟩ := reachable_inv c b issued h hbound
  have hlen : (issued.length : Int) = (all.length : Int) := by
    rw [hiss, numberFrom_length]
  have hitl : (b.chanbuf.items.length : Int) = (all.length : Int) - b.lastack := by
    rw [hitems, List.length_drop]
    omega
  refine ⟨b.chanbuf.len, rfl, ?_, h0, ?_, ?_, ?_⟩
  · rw [hseq]
    unfold Chan.len
    omega
  · rw [hlen]
    unfold Chan.len
    omega
  · exact precheck_exact b (by omega)
  · have hl2 : issued.length = all.length := by exact_mod_cast hlen
    rw [hl2, hiss, numberFrom_map_fst]
    apply List.map_congr_left
    intro k _
    omega

theorem counter_is_cursor_plus_len_plus_one_witness :
    Reachable 2 (⟨2, ⟨[[97]], 2, by decide, by decide⟩, 0, by decide, by decide⟩ : SequentialBufferChanImpl amd64) [(1, [97])] ∧
      ((([((1 : Int), ([97] : Payload))]).length : Nat) : Int) < amd64.maxInt ∧
      ∃ n, (⟨2, ⟨[[97]], 2, by decide, by decide⟩, 0, by decide, by decide⟩ : SequentialBufferChanImpl amd64).Len
          = .returned n ⟨2, ⟨[[97]], 2, by decide, by decide⟩, 0, by decide, by decide⟩ ∧
        (2 : Int) = 0 + n + 1 ∧ (0 : Int) ≤ 0 ∧
        (([((1 : Int), ([97] : Payload))]).length : Int) = 0 + n ∧
        amd64.wrap ((⟨2, ⟨[[97]], 2, by decide, by decide⟩, 0, by decide, by decide⟩ : SequentialBufferChanImpl amd64).lastack
          + (⟨2, ⟨[[97]], 2, by decide, by decide⟩, 0, by decide, by decide⟩ : SequentialBufferChanImpl amd64).chanbuf.len) = 0 + n ∧
        ([((1 : Int), ([97] : Payload))]).map Prod.fst
          = (List.range ([((1 : Int), ([97] : Payload))]).length).map
              (fun (k : Nat) => (k : Int) + 1) :=
  ⟨(Reachable.add
        (⟨1, ⟨[], 2, by decide, by decide⟩, 0, by decide, by decide⟩ :
          SequentialBufferChanImpl amd64) _ [] [97] 1 none
        (Reachable.fresh _ rfl) rfl), by decide,
    counter_is_cursor_plus_len_plus_one 2 ⟨2, ⟨[[97]], 2, by decide, by decide⟩, 0, by decide, by decide⟩ [(1, [97])]
      (Reachable.add
        (⟨1, ⟨[], 2, by decide, by decide⟩, 0, by decide, by decide⟩ :
          SequentialBufferChanImpl amd64) _ [] [97] 1 none
        (Reachable.fresh _ rfl) rfl) (by decide)⟩

/-- C16: in every state reachable from `NewSequentialBufferChanImpl(c)` the
capacity of the channel is `c` and `Len()` is at most `c`; an `Add` that
returns leaves `Len()` at most `c`; and `Reset` returns (its reload never
blocks), handing back exactly the queued entries and leaving exactly them in
the queue. -/
theorem len_never_exceeds_capacity (c : Int) (b : SequentialBufferChanImpl m)
    (issued : List (Int × Payload)) (h : Reachable c b issued) :
    b.chanbuf.capacity = c ∧
      (∃ n, b.Len = .returned n b ∧ n ≤ c) ∧
      (∀ p r b1, b.Add p = .returned r b1 → ∃ n, b1.Len = .returned n b1 ∧ n ≤ c) ∧
      (∃ b1, b.Reset = .returned b.chanbuf.items b1 ∧
        b1.chanbuf.items = b.chanbuf.items ∧ b1.chanbuf.capacity = c) := by
  have hcap := reachable_cap c b issued h
  have hle := b.chanbuf.le_cap
  refine ⟨hcap, ⟨b.chanbuf.len, rfl, ?_⟩, ?_, ?_⟩
  · unfold Chan.len
    omega
  · intro p r b1 hadd
    obtain ⟨_, _, _, hc1, _, _⟩ := add_returned_inv b b1 p r.1 r.2 hadd
    have hle1 := b1.chanbuf.le_cap
    refine ⟨b1.chanbuf.len, rfl, ?_⟩
    unfold Chan.len
    omega
  · obtain ⟨b1, hr, hi, hc1, _⟩ := reset_spec b
    refine ⟨b1, hr, hi, ?_⟩
    unfold Chan.capacity
    rw [hc1]
    exact hcap

theorem len_never_exceeds_capacity_witness :
    Reachable 2 (⟨2, ⟨[[97]], 2, by decide, by decide⟩, 0, by decide, by decide⟩ : SequentialBufferChanImpl amd64) [(1, [97])] ∧
      (⟨2, ⟨[[97]], 2, by decide, by decide⟩, 0, by decide, by decide⟩ : SequentialBufferChanImpl amd64).chanbuf.capacity = 2 ∧
      ∃ n, (⟨2, ⟨[[97]], 2, by decide, by decide⟩, 0, by decide, by decide⟩ : SequentialBufferChanImpl amd64).Len
          = .returned n ⟨2, ⟨[[97]], 2, by decide, by decide⟩, 0, by decide, by decide⟩ ∧ n ≤ 2 :=
  ⟨(Reachable.add
        (⟨1, ⟨[], 2, by decide, by decide⟩, 0, by decide, by decide⟩ :
          SequentialBufferChanImpl amd64) _ [] [97] 1 none
        (Reachable.fresh _ rfl) rfl),
    (len_never_exceeds_capacity 2 ⟨2, ⟨[[97]], 2, by decide, by decide⟩, 0, by decide, by decide⟩ [(1, [97])]
      (Reachable.add
        (⟨1, ⟨[], 2, by decide, by decide⟩, 0, by decide, by decide⟩ :
          SequentialBufferChanImpl amd64) _ [] [97] 1 none
        (Reachable.fresh _ rfl) rfl)).1,
    (len_never_exceeds_capacity 2 ⟨2, ⟨[[97]], 2, by decide, by decide⟩, 0, by decide, by decide⟩ [(1, [97])]
      (Reachable.add
        (⟨1, ⟨[], 2, by decide, by decide⟩, 0, by decide, by decide⟩ :
          SequentialBufferChanImpl amd64) _ [] [97] 1 none
        (Reachable.fresh _ rfl) rfl)).2.1⟩

/-- C17: `Reset` renumbers the survivors from 1 in their FIFO order.  In a
state with queue `q`, whatever the ack cursor and the counter are, `Reset()`
leaves the queue `q` (item `i` stays item `i`), and an `Ack(k)` right after it,
for `k ≤ |q|`, returns `k` and retires exactly the first `k` entries of `q`,
leaving the others in order: entry `i` (from 0) answers to the number `i + 1`. -/
theorem reset_renumbers_from_one (b : SequentialBufferChanImpl m) (k : Nat)
    (hk : k ≤ b.chanbuf.items.length) :
    ∃ b1 b2, b.Reset = .returned b.chanbuf.items b1 ∧
      b1.chanbuf.items = b.chanbuf.items ∧
      b1.Ack (k : Int) = .returned k b2 ∧
      b2.chanbuf.items = b.chanbuf.items.drop k ∧
      b.chanbuf.items = b.chanbuf.items.take k ++ b2.chanbuf.items ∧
      b2.lastack = (k : Int) := by
  obtain ⟨b1, h1, hi1, _, hl1, _⟩ := reset_spec b
  have hlen := b.chanbuf.len_lt_half
  obtain ⟨b2, h2, hi2, _, hl2, _⟩ :=
    ack_spec b1 (k : Int) k (by rw [hl1]; omega) (by rw [hi1]; exact hk)
      (by rw [hl1, hi1]; unfold Machine.maxInt; omega)
  rw [hi1] at hi2
  refine ⟨b1, b2, h1, hi1, h2, hi2, ?_, hl2⟩
  rw [hi2, List.take_append_drop]

theorem reset_renumbers_from_one_witness :
    2 ≤ (⟨9, ⟨[[97], [98], [99]], 4, by decide, by decide⟩, 6, by decide, by decide⟩ :
        SequentialBufferChanImpl amd64).chanbuf.items.length ∧
      ∃ b1 b2,
        (⟨9, ⟨[[97], [98], [99]], 4, by decide, by decide⟩, 6, by decide, by decide⟩ : SequentialBufferChanImpl amd64).Reset
          = .returned [[97], [98], [99]] b1 ∧
        b1.chanbuf.items = [[97], [98], [99]] ∧
        b1.Ack ((2 : Nat) : Int) = .returned 2 b2 ∧
        b2.chanbuf.items = ([[97], [98], [99]] : List Payload).drop 2 ∧
        ([[97], [98], [99]] : List Payload)
          = ([[97], [98], [99]] : List Payload).take 2 ++ b2.chanbuf.items ∧
        b2.lastack = ((2 : Nat) : Int) :=
  ⟨by decide,
    reset_renumbers_from_one ⟨9, ⟨[[97], [98], [99]], 4, by decide, by decide⟩, 6, by decide, by decide⟩ 2 (by decide)⟩

/-- C18, as stated, fails where cursor plus length is not an `int`: on the
64-bit target, with the ack cursor at `9223372036854775805` and four queued
entries, `s = 1` is at most cursor plus `Len()`, yet the pre-check of `Ack(1)`
fails and the call panics instead of returning after no iteration. -/
theorem ack_precheck_fails_below_exact_bound :
    (1 : Int) ≤ (⟨3, ⟨[[97], [98], [99], [100]], 4, by decide, by decide⟩, 9223372036854775805,
        by decide, by decide⟩ : SequentialBufferChanImpl amd64).lastack
        + (⟨3, ⟨[[97], [98], [99], [100]], 4, by decide, by decide⟩, 9223372036854775805,
        by decide, by decide⟩ : SequentialBufferChanImpl amd64).chanbuf.len ∧
      (⟨3, ⟨[[97], [98], [99], [100]], 4, by decide, by decide⟩, 9223372036854775805,
        by decide, by decide⟩ : SequentialBufferChanImpl amd64).Ack 1
        = .panicked "Improper use"
            (⟨3, ⟨[[97], [98], [99], [100]], 4, by decide, by decide⟩, 9223372036854775805,
        by decide, by decide⟩ : SequentialBufferChanImpl amd64) :=
  ⟨by decide, ack_panics _ _ (by decide)⟩

/-- C18, amended: when the pre-check of `Ack(s)` passes (`s` is at most the
`int` sum of cursor and `Len()`, which is cursor plus `Len()` whenever that is
at most the largest `int`), the retirement loop ends, after exactly
`max(0, s - cursor)` iterations (the returned count, which the loop raises by
one per iteration); each iteration dequeued an entry that was there (the queue
afterwards is the old one without that many entries at its head), and the
call is never suspended on an empty queue.  When the pre-check fails, the
call panics with the state untouched, before any dequeue.  So in no state at
all does `Ack` block. -/
theorem ack_loop_terminates_without_blocking (b : SequentialBufferChanImpl m) (s : Int) :
    (¬ m.wrap (b.lastack + b.chanbuf.len) < s →
      ∃ (n : Nat) (b1 : SequentialBufferChanImpl m),
        ackLoop s b 0 = .returned n b1 ∧ b.Ack s = .returned n b1 ∧
        (n : Int) = max 0 (s - b.lastack) ∧ n ≤ b.chanbuf.items.length ∧
        b1.chanbuf.items = b.chanbuf.items.drop n) ∧
    (b.lastack + b.chanbuf.len ≤ m.maxInt →
      (¬ m.wrap (b.lastack + b.chanbuf.len) < s ↔ s ≤ b.lastack + b.chanbuf.len)) ∧
    (m.wrap (b.lastack + b.chanbuf.len) < s → b.Ack s = .panicked "Improper use" b) ∧
    (∀ st, b.Ack s ≠ .blocked st) := by
  refine ⟨?_, ?_, ack_panics b s, ?_⟩
  · intro hpre
    have hloop : ∀ n b1, b.Ack s = .returned n b1 → ackLoop s b 0 = .returned n b1 := by
      intro n b1 h
      unfold Ack at h
      simp only [if_neg hpre] at h
      exact h
    rcases ack_cases b s with ⟨hp, _⟩ | ⟨_, hle, h0⟩ | ⟨_, hlt, _, hlen, b1, h1, hi, _⟩
    · exact absurd hp hpre
    · exact ⟨0, b, hloop 0 b h0, h0, by omega, Nat.zero_le _, by simp⟩
    · exact ⟨_, b1, hloop _ b1 h1, h1, by omega, hlen, hi⟩
  · intro hsum
    unfold Chan.len at hsum ⊢
    rw [m.wrap_of_range _ (by have := b.lastack_range.1; omega) hsum]
    omega
  · intro st hb
    rcases ack_cases b s with ⟨_, hp⟩ | ⟨_, _, h0⟩ | ⟨_, _, _, _, b1, h1, _⟩
    · rw [hp] at hb
      exact absurd hb (by simp)
    · rw [h0] at hb
      exact absurd hb (by simp)
    · rw [h1] at hb
      exact absurd hb (by simp)

theorem ack_loop_terminates_without_blocking_witness :
    ¬ amd64.wrap ((⟨9, ⟨[[97], [98], [99]], 4, by decide, by decide⟩, 5, by decide, by decide⟩ : SequentialBufferChanImpl amd64).lastack
        + (⟨9, ⟨[[97], [98], [99]], 4, by decide, by decide⟩, 5, by decide, by decide⟩ : SequentialBufferChanImpl amd64).chanbuf.len) < 7 ∧
      ∃ (n : Nat) (b1 : SequentialBufferChanImpl amd64),
        ackLoop 7 (⟨9, ⟨[[97], [98], [99]], 4, by decide, by decide⟩, 5, by decide, by decide⟩ : SequentialBufferChanImpl amd64) 0 = .returned n b1 ∧
        (⟨9, ⟨[[97], [98], [99]], 4, by decide, by decide⟩, 5, by decide, by decide⟩ : SequentialBufferChanImpl amd64).Ack 7
          = .returned n b1 ∧
        (n : Int) = max 0 (7 - 5) ∧ n ≤ ([[97], [98], [99]] : List Payload).length ∧
        b1.chanbuf.items = ([[97], [98], [99]] : List Payload).drop n :=
  ⟨by decide,
    (ack_loop_terminates_without_blocking
      (⟨9, ⟨[[97], [98], [99]], 4, by decide, by decide⟩, 5, by decide, by decide⟩ : SequentialBufferChanImpl amd64) 7).1 (by decide)⟩

/-- C19: `Reset` is idempotent.  In every state a first `Reset()` returns the
queued payloads and leaves a state with the same queue, ack cursor 0 and
sequence counter `Len() + 1`; a second `Reset()` right after it returns the
same list and leaves that same state. -/
theorem reset_twice_is_reset_once (b : SequentialBufferChanImpl m) :
    ∃ ps b1 n, b.Reset = .returned ps b1 ∧ b1.Reset = .returned ps b1 ∧
      b.Len = .returned n b ∧
      b1.chanbuf.items = b.chanbuf.items ∧ b1.lastack = 0 ∧ b1.seq = n + 1 := by
  obtain ⟨b1, h1, hi1, hc1, hl1, hs1⟩ := reset_spec b
  obtain ⟨b2, h2, hi2, hc2, hl2, hs2⟩ := reset_spec b1
  have heq : b2 = b1 :=
    state_ext b2 b1 hi2 hc2 (by rw [hs2, hs1, hi1]) (by rw [hl2, hl1])
  rw [heq, hi1] at h2
  exact ⟨_, b1, b.chanbuf.len, h1, h2, rfl, hi1, hl1, hs1⟩

/-! ## The contract of `MemoryBuffer` -/

/-- C20, as stated, fails where the sum of the lengths is not an `int`: on the
64-bit target, after writing one payload of `8589934592` bytes `1073741824`
times to a new buffer, the lengths add up to `9223372036854775808` and
`ByteSize()` returns `-9223372036854775808`. -/
theorem byteSize_wraps_past_maxInt :
    ((List.replicate 1073741824 (List.replicate 8589934592 (0 : UInt8))).map
        (fun p => (p.length : Int))).sum = 9223372036854775808 ∧
      ∃ rs mb1,
        (⟨[], 0⟩ : MemoryBuffer).writeAll []
            (List.replicate 1073741824 (List.replicate 8589934592 (0 : UInt8)))
          = .returned rs mb1 ∧
        mb1.ByteSize amd64 = .returned (-9223372036854775808) mb1 := by
  have h := MemoryBuffer.byteSize_replicate amd64 1073741824 8589934592 (0 : UInt8) 0
  have hw : amd64.wrap (((1073741824 : Nat) : Int) * ((8589934592 : Nat) : Int))
      = -9223372036854775808 := by decide
  have hp : ((1073741824 : Nat) : Int) * ((8589934592 : Nat) : Int)
      = 9223372036854775808 := by decide
  rw [hw] at h
  refine ⟨by rw [h.2, hp], _, _, MemoryBuffer.writeAll_spec _ _ _, ?_⟩
  exact h.1

/-- C20, amended: `MemoryBuffer` is an append-and-iterate container.  On a
buffer that is new or was just `Clear()`ed, writing the payloads `p1..pn` in
order makes each `Write(pi)` return `(len(pi), nil)`; afterwards `Len()` is `n`
and `ByteSize()` is the sum of the `len(pi)` reduced to an `int`, which is the
sum itself whenever that is at most the largest `int`; the next `n`
`ReadNext` calls return `p1, ..., pn` in write order with `eof == false` and a
nil error; and every `ReadNext` after those returns an empty payload with
`eof == true` and a nil error, leaving the buffer as it is. -/
theorem memoryBuffer_appends_and_iterates (m : Machine) (mb0 : MemoryBuffer)
    (ps : List Payload)
    (hstart : (∃ size, NewMemoryBuffer m size = some mb0) ∨
      (∃ mb : MemoryBuffer, mb.Clear = .returned () mb0)) :
    ∃ mb1 mb2,
      mb0.writeAll [] ps = .returned (ps.map (fun p => ((p.length : Int), none))) mb1 ∧
      mb1.Len = .returned (ps.length : Int) mb1 ∧
      mb1.ByteSize m = .returned (m.wrap (ps.map (fun p => (p.length : Int))).sum) mb1 ∧
      ((ps.map (fun p => (p.length : Int))).sum ≤ m.maxInt →
        mb1.ByteSize m = .returned (ps.map (fun p => (p.length : Int))).sum mb1) ∧
      mb1.readMany [] ps.length = .returned (ps.map (fun p => (p, false, none))) mb2 ∧
      mb2.ReadNext = .returned ([], true, none) mb2 ∧
      ∀ k, mb2.readMany [] k = .returned (List.replicate k ([], true, none)) mb2 := by
  have h0 := MemoryBuffer.start_state m mb0 hstart
  subst h0
  refine ⟨⟨ps, 0⟩, ⟨ps, (ps.length : Int)⟩, ?_, ?_, ?_, ?_, ?_, ?_, ?_⟩
  · rw [MemoryBuffer.writeAll_spec]
    simp
  · rfl
  · exact MemoryBuffer.byteSize_spec m _
  · intro hsum
    rw [MemoryBuffer.byteSize_spec,
      m.wrap_of_range _ (by
        have := MemoryBuffer.lengths_nonneg ps
        have := m.half_pos
        unfold Machine.minInt
        omega) hsum]
  · rw [MemoryBuffer.readMany_spec ps.length ⟨ps, 0⟩ [] 0 rfl (by simp)]
    simp
  · exact MemoryBuffer.readNext_at_end _ (le_refl _)
  · intro k
    rw [MemoryBuffer.readMany_at_end k _ [] (le_refl _)]
    simp

theorem memoryBuffer_appends_and_iterates_witness :
    ((∃ size, NewMemoryBuffer amd64 size = some ⟨[], 0⟩) ∨
      (∃ mb : MemoryBuffer, mb.Clear = .returned () ⟨[], 0⟩)) ∧
    (([[97], [98, 99]] : List Payload).map (fun p => (p.length : Int))).sum
      ≤ amd64.maxInt ∧
    ∃ mb1 mb2,
      (⟨[], 0⟩ : MemoryBuffer).writeAll [] [[97], [98, 99]]
        = .returned (([[97], [98, 99]] : List Payload).map
            (fun p => ((p.length : Int), none))) mb1 ∧
      mb1.Len = .returned ((([[97], [98, 99]] : List Payload).length : Nat) : Int) mb1 ∧
      mb1.ByteSize amd64 = .returned
        (([[97], [98, 99]] : List Payload).map (fun p => (p.length : Int))).sum mb1 ∧
      mb1.readMany [] ([[97], [98, 99]] : List Payload).length
        = .returned (([[97], [98, 99]] : List Payload).map (fun p => (p, false, none))) mb2 ∧
      mb2.ReadNext = .returned ([], true, none) mb2 ∧
      ∀ k, mb2.readMany [] k = .returned (List.replicate k ([], true, none)) mb2 := by
  refine ⟨Or.inl ⟨4, rfl⟩, by decide, ?_⟩
  obtain ⟨mb1, mb2, h1, h2, _, h4, h5, h6, h7⟩ :=
    memoryBuffer_appends_and_iterates amd64 ⟨[], 0⟩ [[97], [98, 99]] (Or.inl ⟨4, rfl⟩)
  exact ⟨mb1, mb2, h1, h2, h4 (by decide), h5, h6, h7⟩

end util
